import Mathlib

/-!
Verification development for the Jotaku notes application: a shallow
embedding of the local encrypted note store, its version history, the
client/server synchronization engine and the per-user remote store,
together with proofs of the documented behaviour of each component.

Database tables are modelled as Lean lists of row structures; each Go
function that executes SQL is translated into a pure function on those
lists.  `time.Time` values are modelled as `Int` unix seconds, SQL `NULL`
text as the empty string and `NULL` integers as `0`, matching how the Go
code reads them back (`sql.NullString` / `COALESCE`).
-/

namespace Jotaku

/-- ASCII upper-to-lower case folding as performed by SQLite's default
`LIKE` operator (only the 26 ASCII letters fold; all other characters,
including non-ASCII ones, compare verbatim). -/
def foldChar (c : Char) : Char :=
  match c with
  | 'A' => 'a' | 'B' => 'b' | 'C' => 'c' | 'D' => 'd' | 'E' => 'e' | 'F' => 'f'
  | 'G' => 'g' | 'H' => 'h' | 'I' => 'i' | 'J' => 'j' | 'K' => 'k' | 'L' => 'l'
  | 'M' => 'm' | 'N' => 'n' | 'O' => 'o' | 'P' => 'p' | 'Q' => 'q' | 'R' => 'r'
  | 'S' => 's' | 'T' => 't' | 'U' => 'u' | 'V' => 'v' | 'W' => 'w' | 'X' => 'x'
  | 'Y' => 'y' | 'Z' => 'z'
  | c => c

/-- Case folding applied to a whole character list. -/
def fm (l : List Char) : List Char := l.map foldChar

/-- SQLite `LIKE` pattern matching: `%` matches any run of characters,
`_` a single character, and every other character matches itself up to
ASCII case folding.  This is the semantics of the `LIKE` conditions built
by `SearchNotes` (the repository never sets `PRAGMA case_sensitive_like`,
so the SQLite default, ASCII-case-insensitive, applies). -/
def likeMatch : List Char → List Char → Bool
  | [], ts => ts.isEmpty
  | p :: ps, ts =>
    if p = '%' then ts.tails.any (fun suf => likeMatch ps suf)
    else
      match ts with
      | [] => false
      | t :: ts2 =>
        if p = '_' then likeMatch ps ts2
        else (foldChar p == foldChar t) && likeMatch ps ts2

/-- `startsWithCI s t`: the needle `s` is a prefix of `t` up to ASCII
case folding. -/
def startsWithCI : List Char → List Char → Bool
  | [], _ => true
  | _ :: _, [] => false
  | a :: as, b :: bs => (foldChar a == foldChar b) && startsWithCI as bs

/-- `containsCI s t`: the needle `s` occurs as a contiguous substring of
`t` up to ASCII case folding. -/
def containsCI : List Char → List Char → Bool
  | s, [] => s.isEmpty
  | s, c :: ts2 => startsWithCI s (c :: ts2) || containsCI s ts2

/-! ### SHA-256

`SaveNoteVersion` computes `hex.EncodeToString(sha256.Sum256(content))[:12]`.
The hash is modelled bit-faithfully on `Nat` with explicit reduction
modulo `2^32` wherever the Go code relies on 32-bit wraparound. -/

/-- Truncation to a 32-bit word. -/
def u32 (n : Nat) : Nat := n % 4294967296

/-- 32-bit rotate right. -/
def rotr (n x : Nat) : Nat := u32 ((x >>> n) ||| (x <<< (32 - n)))

def bigS0 (x : Nat) : Nat := (rotr 2 x) ^^^ (rotr 13 x) ^^^ (rotr 22 x)

def bigS1 (x : Nat) : Nat := (rotr 6 x) ^^^ (rotr 11 x) ^^^ (rotr 25 x)

def smallS0 (x : Nat) : Nat := (rotr 7 x) ^^^ (rotr 18 x) ^^^ (x >>> 3)

def smallS1 (x : Nat) : Nat := (rotr 17 x) ^^^ (rotr 19 x) ^^^ (x >>> 10)

def chF (e f g : Nat) : Nat := (e &&& f) ^^^ ((e ^^^ 4294967295) &&& g)

def majF (a b c : Nat) : Nat := (a &&& b) ^^^ (a &&& c) ^^^ (b &&& c)

/-- The 64 SHA-256 round constants (FIPS 180-4, in decimal). -/
def shaK : List Nat :=
  [1116352408, 1899447441, 3049323471, 3921009573, 961987163, 1508970993,
   2453635748, 2870763221, 3624381080, 310598401, 607225278, 1426881987,
   1925078388, 2162078206, 2614888103, 3248222580, 3835390401, 4022224774,
   264347078, 604807628, 770255983, 1249150122, 1555081692, 1996064986,
   2554220882, 2821834349, 2952996808, 3210313671, 3336571891, 3584528711,
   113926993, 338241895, 666307205, 773529912, 1294757372, 1396182291,
   1695183700, 1986661051, 2177026350, 2456956037, 2730485921, 2820302411,
   3259730800, 3345764771, 3516065817, 3600352804, 4094571909, 275423344,
   430227734, 506948616, 659060556, 883997877, 958139571, 1322822218,
   1537002063, 1747873779, 1955562222, 2024104815, 2227730452, 2361852424,
   2428436474, 2756734187, 3204031479, 3329325298]

/-- The SHA-256 initial hash value (in decimal). -/
def shaH0 : List Nat :=
  [1779033703, 3144134277, 1013904242, 2773480762, 1359893119, 2600822924,
   528734635, 1541459225]

/-- Extend a 16-word message block by `k` further schedule words. -/
def buildW (w : List Nat) : Nat → List Nat
  | 0 => w
  | k + 1 =>
    let n := w.length
    buildW (w ++ [u32 (smallS1 (w.getD (n - 2) 0) + w.getD (n - 7) 0 +
      smallS0 (w.getD (n - 15) 0) + w.getD (n - 16) 0)]) k

/-- One SHA-256 round on the eight-word working state. -/
def shaRound (st : List Nat) (kw : Nat × Nat) : List Nat :=
  match st with
  | [a, b, c, d, e, f, g, h] =>
    let t1 := u32 (h + bigS1 e + chF e f g + kw.1 + kw.2)
    let t2 := u32 (bigS0 a + majF a b c)
    [u32 (t1 + t2), a, b, c, u32 (d + t1), e, f, g]
  | other => other

/-- Compress one 16-word block into the running hash. -/
def compressBlock (hs block : List Nat) : List Nat :=
  let st := (shaK.zip (buildW block 48)).foldl shaRound hs
  (hs.zip st).map (fun p => u32 (p.1 + p.2))

/-- Group bytes into big-endian 32-bit words. -/
def words32 : List Nat → List Nat
  | a :: b :: c :: d :: rest => (((a * 256 + b) * 256 + c) * 256 + d) :: words32 rest
  | [] => []
  | l => [((l.getD 0 0 * 256 + l.getD 1 0) * 256 + l.getD 2 0) * 256 + l.getD 3 0]

/-- `k` big-endian bytes of `n`. -/
def beBytes (k n : Nat) : List Nat :=
  match k with
  | 0 => []
  | k + 1 => beBytes k (n / 256) ++ [n % 256]

/-- SHA-256 padding: `0x80`, zeros to 56 mod 64, then the 64-bit
big-endian bit length. -/
def padMsg (msg : List Nat) : List Nat :=
  let L := msg.length
  msg ++ [128] ++ List.replicate ((119 - L % 64) % 64) 0 ++ beBytes 8 (8 * L)

/-- Fold `compressBlock` over successive 64-byte chunks; the fuel
argument (instantiated with the padded length) bounds the recursion. -/
def shaBlocks : Nat → List Nat → List Nat → List Nat
  | 0, hs, _ => hs
  | fuel + 1, hs, l =>
    if l.isEmpty then hs
    else shaBlocks fuel (compressBlock hs (words32 (l.take 64))) (l.drop 64)

/-- SHA-256 of a byte list, as eight 32-bit words. -/
def sha256Words (msg : List Nat) : List Nat :=
  shaBlocks (padMsg msg).length shaH0 (padMsg msg)

def hexDigit (n : Nat) : Char :=
  if n < 10 then Char.ofNat (48 + n) else Char.ofNat (87 + n)

def hexWord (n : Nat) : List Char :=
  (beBytes 4 n).flatMap (fun b => [hexDigit (b / 16), hexDigit (b % 16)])

/-- UTF-8 encoding of one character (Go strings are UTF-8 byte slices). -/
def utf8Char (c : Char) : List Nat :=
  let n := c.toNat
  if n < 128 then [n]
  else if n < 2048 then [192 + n / 64, 128 + n % 64]
  else if n < 65536 then [224 + n / 4096, 128 + (n / 64) % 64, 128 + n % 64]
  else [240 + n / 262144, 128 + (n / 4096) % 64, 128 + (n / 64) % 64, 128 + n % 64]

/-- The short content hash stored with every note version: the first 12
hex characters of the SHA-256 of the content. -/
def shortHash (s : String) : String :=
  String.mk (((sha256Words (s.data.flatMap utf8Char)).flatMap hexWord).take 12)

/-! ### Go `encoding/json` marshalling of a `[]string`

The local store keeps tag lists in a TEXT column holding
`string(json.Marshal(tags))`; `SearchNotes` matches tags with a `LIKE`
against that raw text. -/

/-- One character of Go JSON string encoding (`json.Marshal` escapes the
quote, backslash, the HTML characters and control characters). -/
def escChar (c : Char) : List Char :=
  if c = '"' then ['\\', '"']
  else if c = '\\' then ['\\', '\\']
  else if c = '\n' then ['\\', 'n']
  else if c = '\r' then ['\\', 'r']
  else if c = '\t' then ['\\', 't']
  else if c.toNat < 32 || c = '<' || c = '>' || c = '&' then
    ['\\', 'u', '0', '0', hexDigit (c.toNat / 16), hexDigit (c.toNat % 16)]
  else [c]

/-- Comma-separated, double-quoted JSON array elements. -/
def encElems : List (List Char) → List Char
  | [] => []
  | [x] => '"' :: (x ++ ['"'])
  | x :: y :: r => '"' :: (x ++ ['"']) ++ ',' :: encElems (y :: r)

/-- A JSON array literal from already-escaped elements. -/
def encList (l : List (List Char)) : List Char := '[' :: (encElems l ++ [']'])

/-- `string(json.Marshal(tags))` for a `[]string`. -/
def jsonMarshal (tags : List String) : String :=
  String.mk (encList (tags.map (fun t => t.data.flatMap escChar)))

/-- Characters that `escChar` passes through unchanged. -/
def plainChar (c : Char) : Bool :=
  !(c = '"' || c = '\\' || c.toNat < 32 || c = '<' || c = '>' || c = '&')

/-! ### Local data model (`internal/db/models.go` and the SQLite schema) -/

def SyncStatusLocal : String := "local"

def SyncStatusPending : String := "pending"

def SyncStatusSynced : String := "synced"

/-- A row of the local `notes` table.  `tags` is the raw TEXT column
(JSON-encoded list); `NULL` text is modelled as `""`, `NULL`
`parent_folder_id` as `0`, exactly as the Go code reads the row back. -/
structure Note where
  id : Int
  title : String := ""
  content : String := ""
  tags : String := "[]"
  password : String := ""
  parentFolder : Int := 0
  createdAt : Int := 0
  updatedAt : Int := 0
  serverID : String := ""
  syncStatus : String := SyncStatusLocal
  deleted : Bool := false
deriving DecidableEq

/-- A row of the local `folders` table (note: the schema has no
`sync_status` column for folders). -/
structure Folder where
  id : Int
  title : String := ""
  password : String := ""
  parentFolder : Int := 0
  createdAt : Int := 0
  updatedAt : Int := 0
  deleted : Bool := false
deriving DecidableEq

/-- A row of the local `note_versions` table.  `tags` is kept in decoded
form (the Go struct's `[]string`); the column stores its JSON encoding. -/
structure NoteVersion where
  id : Int
  noteID : Int
  title : String := ""
  content : String := ""
  tags : List String := []
  hash : String := ""
  versionNum : Int := 0
  createdAt : Int := 0
deriving DecidableEq

/-- The projection returned by the list/search queries. -/
structure NoteListItem where
  id : Int
  title : String
  updatedAt : Int
  syncStatus : String
deriving DecidableEq

/-- Stable insertion of `x` into a list sorted descending by `key`. -/
def insertDescBy (key : α → Int) (x : α) : List α → List α
  | [] => [x]
  | y :: ys => if key y < key x then x :: y :: ys else y :: insertDescBy key x ys

/-- `ORDER BY ... DESC`, modelled as a stable descending sort. -/
def sortDescBy (key : α → Int) (l : List α) : List α := l.foldr (insertDescBy key) []

namespace DB

/-- AUTOINCREMENT model: the next rowid is one more than the largest id
ever handed out (here: largest in use). -/
def freshNoteId (db : List Note) : Int := (db.map Note.id).foldl max 0 + 1

/-- `CreateNote`: insert with `sync_status = 'pending'`, `deleted = 0`. -/
def CreateNote (db : List Note) (title content : String) (tags : List String)
    (now : Int) : List Note :=
  db ++ [{ id := freshNoteId db, title := title, content := content,
           tags := jsonMarshal tags, createdAt := now, updatedAt := now,
           syncStatus := SyncStatusPending }]

/-- `UpdateNote`: rewrite content fields, re-stamp `updated_at`, set
`sync_status = 'pending'`. -/
def UpdateNote (db : List Note) (id : Int) (title content : String)
    (tags : List String) (now : Int) : List Note :=
  db.map fun n => if n.id = id then
    { n with title := title, content := content, tags := jsonMarshal tags,
             updatedAt := now, syncStatus := SyncStatusPending } else n

/-- `DeleteNote`: soft delete — mark deleted and pending. -/
def DeleteNote (db : List Note) (id : Int) (now : Int) : List Note :=
  db.map fun n => if n.id = id then
    { n with deleted := true, syncStatus := SyncStatusPending, updatedAt := now } else n

/-- `SetNotePassword`: `UPDATE notes SET password = ?, updated_at =
CURRENT_TIMESTAMP WHERE id = ?` — and nothing else. -/
def SetNotePassword (db : List Note) (id : Int) (password : String) (now : Int) :
    List Note :=
  db.map fun n => if n.id = id then
    { n with password := password, updatedAt := now } else n

/-- `GetPendingNotes`: all rows with `sync_status = 'pending'`. -/
def GetPendingNotes (db : List Note) : List Note :=
  db.filter (fun n => n.syncStatus == SyncStatusPending)

/-- `SetNoteSynced`: record the server id and mark the row synced. -/
def SetNoteSynced (db : List Note) (id : Int) (serverID : String) : List Note :=
  db.map fun n => if n.id = id then
    { n with serverID := serverID, syncStatus := SyncStatusSynced } else n

/-- `GetNoteByServerID`: first row whose `server_id` matches. -/
def GetNoteByServerID (db : List Note) (serverID : String) : Option Note :=
  db.find? (fun n => n.serverID == serverID)

/-- `UpsertFromServer`: apply one downloaded row.  A matching local row
is overwritten only when the remote `updated_at` is strictly newer
(`updatedAt.After(existing.UpdatedAt)`); otherwise nothing happens.  A
row with an unknown `server_id` is inserted marked `synced`. -/
def UpsertFromServer (db : List Note) (serverID title content tags : String)
    (createdAt updatedAt : Int) : List Note :=
  match GetNoteByServerID db serverID with
  | some existing =>
    if existing.updatedAt < updatedAt then
      db.map fun n => if n.serverID == serverID then
        { n with title := title, content := content, tags := tags,
                 updatedAt := updatedAt, syncStatus := SyncStatusSynced } else n
    else db
  | none =>
    db ++ [{ id := freshNoteId db, title := title, content := content,
             tags := tags, createdAt := createdAt, updatedAt := updatedAt,
             serverID := serverID, syncStatus := SyncStatusSynced }]

/-- `PermanentlyDeleteSynced`: `DELETE FROM notes WHERE id = ? AND deleted = 1`. -/
def PermanentlyDeleteSynced (db : List Note) (id : Int) : List Note :=
  db.filter (fun n => !(n.id == id && n.deleted))

/-- The projection used by the list/search queries. -/
def noteItem (n : Note) : NoteListItem :=
  { id := n.id, title := n.title, updatedAt := n.updatedAt, syncStatus := n.syncStatus }

/-- The WHERE clause `SearchNotes` assembles: not deleted, an optional
`title LIKE '%q%' OR content LIKE '%q%'` condition, and one
`tags LIKE '%"t"%'` condition per requested tag. -/
def searchCond (query : String) (tags : List String) (n : Note) : Bool :=
  (!n.deleted) &&
  (query == "" || likeMatch ('%' :: query.data ++ ['%']) n.title.data
               || likeMatch ('%' :: query.data ++ ['%']) n.content.data) &&
  tags.all (fun t => likeMatch ('%' :: '"' :: t.data ++ ['"', '%']) n.tags.data)

/-- `SearchNotes`, with `ORDER BY updated_at DESC`. -/
def SearchNotes (db : List Note) (query : String) (tags : List String) :
    List NoteListItem :=
  sortDescBy (fun i => i.updatedAt) ((db.filter (searchCond query tags)).map noteItem)

/-- AUTOINCREMENT model for `note_versions` rowids. -/
def freshVersionId (vs : List NoteVersion) : Int :=
  (vs.map NoteVersion.id).foldl max 0 + 1

/-- `COALESCE(MAX(version_num), 0)` over one note's versions. -/
def maxVersionNum (vs : List NoteVersion) (noteID : Int) : Int :=
  ((vs.filter (fun v => v.noteID == noteID)).map NoteVersion.versionNum).foldl max 0

/-- Keep the row with the larger version number (ties keep the earlier
row). -/
def latestPick (acc : Option NoteVersion) (v : NoteVersion) : Option NoteVersion :=
  match acc with
  | none => some v
  | some a => if a.versionNum < v.versionNum then some v else acc

/-- `SELECT hash FROM note_versions WHERE note_id = ? ORDER BY
version_num DESC LIMIT 1`: the row with the largest version number. -/
def latestVersion (vs : List NoteVersion) (noteID : Int) : Option NoteVersion :=
  (vs.filter (fun v => v.noteID == noteID)).foldl latestPick none

/-- The duplicate test of `SaveNoteVersion`: does the newest version of
this note already carry this content hash? -/
def dupOfLatest (vs : List NoteVersion) (noteID : Int) (hashStr : String) : Bool :=
  match latestVersion vs noteID with
  | some last => last.hash == hashStr
  | none => false

/-- `SaveNoteVersion`: skip when the newest version of this note carries
the same content hash; otherwise append with `MAX(version_num) + 1`. -/
def SaveNoteVersion (vs : List NoteVersion) (noteID : Int) (title content : String)
    (tags : List String) (now : Int) : List NoteVersion :=
  let hashStr := shortHash content
  if dupOfLatest vs noteID hashStr then vs
  else vs ++ [{ id := freshVersionId vs, noteID := noteID, title := title,
                content := content, tags := tags, hash := hashStr,
                versionNum := maxVersionNum vs noteID + 1, createdAt := now }]

/-- `GetNoteVersion`: look one version row up by its rowid. -/
def GetNoteVersion (vs : List NoteVersion) (versionID : Int) : Option NoteVersion :=
  vs.find? (fun v => v.id == versionID)

/-- `RestoreNoteVersion`: copy the chosen version's fields back onto the
live note and mark it pending.  Returns the whole database state; `none`
models the early error return when the version row does not exist. -/
def RestoreNoteVersion (notes : List Note) (versions : List NoteVersion)
    (noteID versionID : Int) (now : Int) : Option (List Note × List NoteVersion) :=
  match GetNoteVersion versions versionID with
  | none => none
  | some v => some
      (notes.map fun n => if n.id = noteID then
        { n with title := v.title, content := v.content,
                 tags := jsonMarshal v.tags, updatedAt := now,
                 syncStatus := SyncStatusPending } else n,
       versions)

/-- AUTOINCREMENT model for folder rowids. -/
def freshFolderId (db : List Folder) : Int := (db.map Folder.id).foldl max 0 + 1

/-- `CreateFolder`: plain insert (no sync status exists for folders). -/
def CreateFolder (db : List Folder) (title : String) (parentID : Int) (now : Int) :
    List Folder :=
  db ++ [{ id := freshFolderId db, title := title, parentFolder := parentID,
           createdAt := now, updatedAt := now }]

/-- `SetFolderPassword`: set the password and re-stamp `updated_at`. -/
def SetFolderPassword (db : List Folder) (id : Int) (password : String) (now : Int) :
    List Folder :=
  db.map fun f => if f.id = id then
    { f with password := password, updatedAt := now } else f

/-- `DeleteFolder`: `UPDATE folders SET deleted = 1, updated_at =
CURRENT_TIMESTAMP WHERE id = ?`. -/
def DeleteFolder (db : List Folder) (id : Int) (now : Int) : List Folder :=
  db.map fun f => if f.id = id then { f with deleted := true, updatedAt := now } else f

end DB

/-! ### Remote store (`internal/db/server.go`) and its HTTP handler -/

/-- A row of the server's `notes` table. -/
structure ServerNote where
  id : String
  userID : Int
  title : String := ""
  content : String := ""
  tags : String := ""
  parentFolderID : String := ""
  createdAt : Int := 0
  updatedAt : Int := 0
deriving DecidableEq

/-- The JSON body of `POST /api/notes`. -/
structure UpsertNoteRequest where
  id : String := ""
  title : String := ""
  content : String := ""
  tags : String := ""
  parentFolderID : String := ""
  createdAt : Int := 0
  updatedAt : Int := 0
deriving DecidableEq

/-- The JSON body returned by the note handlers. -/
structure NoteResponse where
  id : String
  title : String := ""
  content : String := ""
  tags : String := ""
  parentFolderID : String := ""
  createdAt : Int := 0
  updatedAt : Int := 0
deriving DecidableEq

namespace ServerDB

/-- `GetNote`: `WHERE id = ? AND user_id = ?`. -/
def GetNote (tbl : List ServerNote) (id : String) (userID : Int) : Option ServerNote :=
  tbl.find? (fun n => n.id == id && n.userID == userID)

/-- `ListNotesByUser`: the caller's rows, newest first. -/
def ListNotesByUser (tbl : List ServerNote) (userID : Int) : List ServerNote :=
  sortDescBy (fun n => n.updatedAt) (tbl.filter (fun n => n.userID == userID))

/-- `GetNotesSince`: the caller's rows with `updated_at > since`, newest
first. -/
def GetNotesSince (tbl : List ServerNote) (userID : Int) (since : Int) :
    List ServerNote :=
  sortDescBy (fun n => n.updatedAt)
    (tbl.filter (fun n => n.userID == userID && since < n.updatedAt))

/-- `UpsertNote`: `INSERT ... ON CONFLICT(id) DO UPDATE ... WHERE
user_id = ?`.  `freshId` models the UUID minted when `id` is empty.  On
an id conflict the update clause touches only rows owned by the caller,
so an id owned by someone else is silently left alone; the returned
`ServerNote` always echoes the submitted fields. -/
def UpsertNote (tbl : List ServerNote) (userID : Int)
    (id title content tags parentFolderID : String) (createdAt updatedAt : Int)
    (freshId : String) : List ServerNote × ServerNote :=
  let rid := if id == "" then freshId else id
  let tbl' :=
    if tbl.any (fun n => n.id == rid) then
      tbl.map fun n => if n.id == rid && n.userID == userID then
        { n with title := title, content := content, tags := tags,
                 parentFolderID := parentFolderID, updatedAt := updatedAt } else n
    else
      tbl ++ [{ id := rid, userID := userID, title := title, content := content,
                tags := tags, parentFolderID := parentFolderID,
                createdAt := createdAt, updatedAt := updatedAt }]
  (tbl', { id := rid, userID := userID, title := title, content := content,
           tags := tags, parentFolderID := parentFolderID,
           createdAt := createdAt, updatedAt := updatedAt })

/-- `DeleteNote`: `DELETE FROM notes WHERE id = ? AND user_id = ?`. -/
def DeleteNote (tbl : List ServerNote) (id : String) (userID : Int) :
    List ServerNote :=
  tbl.filter (fun n => !(n.id == id && n.userID == userID))

end ServerDB

/-- The `NoteResponse` built from a stored/echoed row. -/
def noteResponse (n : ServerNote) : NoteResponse :=
  { id := n.id, title := n.title, content := n.content, tags := n.tags,
    parentFolderID := n.parentFolderID, createdAt := n.createdAt,
    updatedAt := n.updatedAt }

/-- `upsertNoteHandler`: validate the title, replace non-positive
submitted timestamps by the server clock `now`, upsert, and answer with
the row the store echoed back.  `none` models the 400 error response. -/
def upsertNoteHandler (tbl : List ServerNote) (userID : Int)
    (req : UpsertNoteRequest) (now : Int) (freshId : String) :
    Option (List ServerNote × NoteResponse) :=
  if req.title == "" then none
  else
    let createdAt := if 0 < req.createdAt then req.createdAt else now
    let updatedAt := if 0 < req.updatedAt then req.updatedAt else now
    let r := ServerDB.UpsertNote tbl userID req.id req.title req.content req.tags
      req.parentFolderID createdAt updatedAt freshId
    some (r.1, noteResponse r.2)

/-! ### Sync engine (`internal/api/sync.go` and `doSync` in the UI) -/

/-- A transport call, recorded so the theorems can speak about which
network requests a pass issues. -/
inductive TCall
  | deleteNote (serverID : String)
  | upsertNote (req : UpsertNoteRequest)
  | syncNotes (since : Int)
deriving DecidableEq

/-- The HTTP client, as an oracle: `false` / `none` mean a transport
error (network failure, timeout or non-2xx status). -/
structure Transport where
  deleteNote : String → Bool
  upsertNote : UpsertNoteRequest → Option NoteResponse
  syncNotes : Int → Option (List NoteResponse)

/-- `api.SyncResult`; the error list is modelled by its length. -/
structure SyncResult where
  uploaded : Nat := 0
  downloaded : Nat := 0
  deleted : Nat := 0
  errors : Nat := 0
deriving DecidableEq

/-- The upload request `Sync` builds for a live pending row (the client
sends no parent folder; tags travel as the JSON text). -/
def uploadReq (n : Note) : UpsertNoteRequest :=
  { id := n.serverID, title := n.title, content := n.content, tags := n.tags,
    createdAt := n.createdAt, updatedAt := n.updatedAt }

/-- The transport calls the upload phase issues for one pending row. -/
def uploadCalls (n : Note) : List TCall :=
  if n.deleted then
    (if n.serverID == "" then [] else [TCall.deleteNote n.serverID])
  else [TCall.upsertNote (uploadReq n)]

/-- One iteration of the upload loop of `Sync`. -/
def uploadStep (tr : Transport) (acc : List Note × SyncResult × List TCall)
    (n : Note) : List Note × SyncResult × List TCall :=
  let db := acc.1
  let res := acc.2.1
  let trace := acc.2.2
  if n.deleted then
    if n.serverID == "" then
      (DB.PermanentlyDeleteSynced db n.id,
       { res with deleted := res.deleted + 1 }, trace)
    else if tr.deleteNote n.serverID then
      (DB.PermanentlyDeleteSynced db n.id,
       { res with deleted := res.deleted + 1 },
       trace ++ [TCall.deleteNote n.serverID])
    else
      (db, { res with errors := res.errors + 1 },
       trace ++ [TCall.deleteNote n.serverID])
  else
    match tr.upsertNote (uploadReq n) with
    | some resp =>
      (DB.SetNoteSynced db n.id resp.id,
       { res with uploaded := res.uploaded + 1 },
       trace ++ [TCall.upsertNote (uploadReq n)])
    | none =>
      (db, { res with errors := res.errors + 1 },
       trace ++ [TCall.upsertNote (uploadReq n)])

/-- Phase 1 of `Sync`: drain the pending snapshot. -/
def uploadPhase (tr : Transport) (db : List Note) :
    List Note × SyncResult × List TCall :=
  (DB.GetPendingNotes db).foldl (uploadStep tr) (db, {}, [])

/-- One iteration of the download loop of `Sync`. -/
def downloadStep (acc : List Note × SyncResult) (sn : NoteResponse) :
    List Note × SyncResult :=
  (DB.UpsertFromServer acc.1 sn.id sn.title sn.content sn.tags sn.createdAt
     sn.updatedAt,
   { acc.2 with downloaded := acc.2.downloaded + 1 })

/-- `api.Sync`: upload pending local changes, then fetch and apply the
remote changes since the checkpoint.  A failed fetch is recorded as one
more error and the pass still returns its result. -/
def Sync (tr : Transport) (db : List Note) (lastSync : Int) :
    List Note × SyncResult × List TCall :=
  let u := uploadPhase tr db
  match tr.syncNotes lastSync with
  | none => (u.1, { u.2.1 with errors := u.2.1.errors + 1 },
             u.2.2 ++ [TCall.syncNotes lastSync])
  | some sns =>
    let d := sns.foldl downloadStep (u.1, u.2.1)
    (d.1, d.2, u.2.2 ++ [TCall.syncNotes lastSync])

/-- `doSync` plus the `syncResultMsg` handler in `internal/ui/model.go`:
the checkpoint `config.Server.LastSync` is persisted exactly when the
pass reported success, which requires the pass's error list to be
empty. -/
def doSyncAdvancesCheckpoint (res : SyncResult) : Bool := res.errors == 0

/-! ### Spec-side search predicates (C9) -/

/-- Exact (case-sensitive) substring containment, the relation the
original search claim asserts. -/
def containsCS : List Char → List Char → Bool
  | s, [] => s.isEmpty
  | s, c :: ts2 => s.isPrefixOf (c :: ts2) || containsCS s ts2

/-- No SQL `LIKE` wildcard characters. -/
def likeClean (s : String) : Bool := s.data.all (fun c => !(c = '%' || c = '_'))

/-- A tag that the `LIKE`-on-JSON-text trick matches exactly: no `LIKE`
wildcards, no characters the JSON encoder escapes, and not the
one-character string `","`. -/
def tagClean (t : String) : Bool :=
  (t.data.all fun c => plainChar c && !(c = '%' || c = '_')) && t ≠ ","

/-- Spec-side search match: ASCII-case-insensitive substring on the
title or the content, and every requested tag present in the note's tag
list up to ASCII case. -/
def searchSpecMatch (query : String) (tags : List String)
    (title content : String) (tagList : List String) : Bool :=
  (containsCI query.data title.data || containsCI query.data content.data) &&
  tags.all (fun t => tagList.any (fun x => fm x.data == fm t.data))

/-! ### Version-history bookkeeping for the C5 statement -/

/-- One `SaveNoteVersion` call. -/
structure SaveOp where
  noteID : Int
  title : String := ""
  content : String := ""
  tags : List String := []
  now : Int := 0

/-- Run a sequence of `SaveNoteVersion` calls against an initially empty
`note_versions` table. -/
def applySaves (ops : List SaveOp) : List NoteVersion :=
  ops.foldl (fun vs op =>
    DB.SaveNoteVersion vs op.noteID op.title op.content op.tags op.now) []

/-- The version numbers recorded for one note, in table order. -/
def versionNums (vs : List NoteVersion) (nid : Int) : List Int :=
  (vs.filter (fun v => v.noteID == nid)).map NoteVersion.versionNum

/-- Every note's version numbers are exactly `1, 2, …, k` in order. -/
def versionInv (vs : List NoteVersion) : Prop :=
  ∀ nid : Int, ∃ k : Nat,
    versionNums vs nid = (List.range' 1 k).map (fun j => Int.ofNat j)

/-! ### Concrete fixtures used by witnesses and counterexamples -/

/-- The transport of the C2 counterexample: note uploads fail, the
download fetch succeeds with an empty change set. -/
def c2transport : Transport :=
  { deleteNote := fun _ => true, upsertNote := fun _ => none,
    syncNotes := fun _ => some [] }

/-- The local table of the C2 counterexample: one live pending note. -/
def c2db : List Note := [{ id := 1, syncStatus := SyncStatusPending }]

/-- The request of the C3 witness: empty id (mint path), a positive
`createdAt` and a non-positive `updatedAt`. -/
def c3req : UpsertNoteRequest :=
  { title := r"t", content := r"c", tags := r"[]",
    createdAt := 5, updatedAt := 0 }

/-- The three-version history of the C7 witness (the spec's scenario). -/
def c7v2 : NoteVersion :=
  { id := 2, noteID := 1, title := r"t2", content := r"c2", versionNum := 2,
    hash := shortHash (r"c2") }

/-- The version table of the C7 witness. -/
def c7versions : List NoteVersion :=
  [{ id := 1, noteID := 1, title := r"t1", content := r"c1", versionNum := 1,
     hash := shortHash (r"c1") },
   c7v2,
   { id := 3, noteID := 1, title := r"t3", content := r"c3", versionNum := 3,
     hash := shortHash (r"c3") }]

/-- The request of the C10 witness: user 1 tries to overwrite a row
owned by user 2. -/
def c10req : UpsertNoteRequest :=
  { id := r"x", title := r"mine", content := r"c", tags := r"[]",
    createdAt := 5, updatedAt := 7 }

/-- The row set of the C9 witness. -/
def c9rows : List (Note × List String) :=
  [({ id := 1, title := r"Hello", updatedAt := 2, tags := jsonMarshal [r"b"] },
    [r"b"])]

/-! ### Helper lemmas -/

theorem mem_insertDescBy {key : α → Int} {x y : α} {l : List α} :
    x ∈ insertDescBy key y l ↔ x = y ∨ x ∈ l := by
  induction l with
  | nil => simp [insertDescBy]
  | cons z zs ih =>
    simp only [insertDescBy]
    split
    · simp
    · simp only [List.mem_cons, ih]
      tauto

theorem mem_sortDescBy {key : α → Int} {x : α} {l : List α} :
    x ∈ sortDescBy key l ↔ x ∈ l := by
  induction l with
  | nil => simp [sortDescBy]
  | cons z zs ih =>
    show x ∈ insertDescBy key z (sortDescBy key zs) ↔ _
    rw [mem_insertDescBy, ih, List.mem_cons]

/-! ### C1 — last-write-wins download merge -/

/-- C1: in the download phase, a remote row whose `serverID` matches a
local row overwrites the local title/content/tags only when the remote
`updatedAt` is strictly after the local one; on a tie or an older remote
the local table is returned untouched; a remote row with no matching
local `serverID` is inserted as a new local row marked `synced`. -/
theorem UpsertFromServer_lastWriteWins (db : List Note)
    (serverID title content tags : String) (createdAt updatedAt : Int) :
    (∀ l, DB.GetNoteByServerID db serverID = some l →
      (l.updatedAt < updatedAt →
        DB.UpsertFromServer db serverID title content tags createdAt updatedAt =
          db.map fun n => if n.serverID == serverID then
            { n with title := title, content := content, tags := tags,
                     updatedAt := updatedAt, syncStatus := SyncStatusSynced }
          else n) ∧
      (¬ l.updatedAt < updatedAt →
        DB.UpsertFromServer db serverID title content tags createdAt updatedAt = db)) ∧
    (DB.GetNoteByServerID db serverID = none →
      DB.UpsertFromServer db serverID title content tags createdAt updatedAt =
        db ++ [{ id := DB.freshNoteId db, title := title, content := content,
                 tags := tags, createdAt := createdAt, updatedAt := updatedAt,
                 serverID := serverID, syncStatus := SyncStatusSynced }]) := by
  constructor
  · intro l hl
    refine ⟨fun h => ?_, fun h => ?_⟩ <;> simp [DB.UpsertFromServer, hl, h]
  · intro h
    simp [DB.UpsertFromServer, h]

/-- Witness for C1, at the spec's tie/older scenario: remote updated at
100, local at 200 — the local row survives unchanged. -/
theorem UpsertFromServer_lastWriteWins_witness :
    DB.UpsertFromServer [{ id := 1, title := r"A", updatedAt := 200, serverID := r"s" }]
        (r"s") (r"B") (r"") (r"[]") 100 100 =
      [{ id := 1, title := r"A", updatedAt := 200, serverID := r"s" }] :=
  ((UpsertFromServer_lastWriteWins
      [{ id := 1, title := r"A", updatedAt := 200, serverID := r"s" }]
      (r"s") (r"B") (r"") (r"[]") 100 100).1
    ({ id := 1, title := r"A", updatedAt := 200, serverID := r"s" } : Note)
    (by decide)).2 (by decide)

/-! ### C2 — checkpoint advance -/

/-- C2 counterexample: a pass whose download fetch succeeds but which
hits one item-level upload error does not advance the checkpoint — the
claim says item-level upload errors never block the checkpoint. -/
theorem checkpoint_blocked_by_item_error :
    c2transport.syncNotes 0 = some [] ∧
    (Sync c2transport c2db 0).2.1.errors = 1 ∧
    doSyncAdvancesCheckpoint (Sync c2transport c2db 0).2.1 = false :=
  ⟨rfl, rfl, rfl⟩

theorem downloadStep_errors (sns : List NoteResponse) :
    ∀ acc : List Note × SyncResult,
      (sns.foldl downloadStep acc).2.errors = acc.2.errors := by
  induction sns with
  | nil => intro acc; rfl
  | cons s ss ih => intro acc; rw [List.foldl_cons, ih]; rfl

/-- C2 (amended): the checkpoint is persisted iff the pass produced no
errors at all — both a fatal transport error fetching the download set
and every item-level upload error block the checkpoint from advancing
(applying a downloaded row never fails in the model, so the error count
of a pass is the upload-phase error count plus one for a failed fetch). -/
theorem checkpoint_advance_iff_no_errors (tr : Transport) (db : List Note)
    (lastSync : Int) :
    doSyncAdvancesCheckpoint (Sync tr db lastSync).2.1 = true ↔
      ((uploadPhase tr db).2.1.errors = 0 ∧ (tr.syncNotes lastSync).isSome = true) := by
  unfold Sync doSyncAdvancesCheckpoint
  cases h : tr.syncNotes lastSync with
  | none => simp [h]
  | some sns => simp [h, downloadStep_errors]

/-! ### C3 — who assigns the remote timestamps -/

/-- C3 counterexample: a remote upsert with submitted timestamps
(100, 200) against server clock 999 stores exactly the submitted
values — `created_at`/`updated_at` are taken from the client's request,
not assigned by the server. -/
theorem remote_timestamps_not_server_assigned :
    upsertNoteHandler [] 1 { title := r"t", createdAt := 100, updatedAt := 200 }
        999 (r"u1") =
      some ([{ id := r"u1", userID := 1, title := r"t",
               createdAt := 100, updatedAt := 200 }],
            { id := r"u1", title := r"t", createdAt := 100, updatedAt := 200 }) ∧
    (100 : Int) ≠ 999 ∧ (200 : Int) ≠ 999 :=
  ⟨rfl, by decide, by decide⟩

/-- C3 (amended): each timestamp a remote note upsert stores is selected
per field as "the client's submitted value when it is positive, the
server clock `now` otherwise" — on the mint path (empty id, the store
assigns a fresh UUID), on an insert under a fresh client-supplied id,
and on the update path, where the conflict clause rewrites `updated_at`
with that selected value and leaves the stored `created_at` untouched.
The last four conjuncts restate the selector: a positive submitted
timestamp is taken verbatim and `now` is substituted only for a
non-positive one. -/
theorem upsertNoteHandler_timestamps (tbl : List ServerNote) (userID : Int)
    (req : UpsertNoteRequest) (now : Int) (freshId : String)
    (htitle : req.title ≠ "") :
    (req.id = "" → (∀ n ∈ tbl, n.id ≠ freshId) →
      upsertNoteHandler tbl userID req now freshId =
        some (tbl ++ [{ id := freshId, userID := userID, title := req.title,
                        content := req.content, tags := req.tags,
                        parentFolderID := req.parentFolderID,
                        createdAt := if 0 < req.createdAt then req.createdAt else now,
                        updatedAt := if 0 < req.updatedAt then req.updatedAt else now }],
              { id := freshId, title := req.title, content := req.content,
                tags := req.tags, parentFolderID := req.parentFolderID,
                createdAt := if 0 < req.createdAt then req.createdAt else now,
                updatedAt := if 0 < req.updatedAt then req.updatedAt else now })) ∧
    (req.id ≠ "" → (∀ n ∈ tbl, n.id ≠ req.id) →
      upsertNoteHandler tbl userID req now freshId =
        some (tbl ++ [{ id := req.id, userID := userID, title := req.title,
                        content := req.content, tags := req.tags,
                        parentFolderID := req.parentFolderID,
                        createdAt := if 0 < req.createdAt then req.createdAt else now,
                        updatedAt := if 0 < req.updatedAt then req.updatedAt else now }],
              { id := req.id, title := req.title, content := req.content,
                tags := req.tags, parentFolderID := req.parentFolderID,
                createdAt := if 0 < req.createdAt then req.createdAt else now,
                updatedAt := if 0 < req.updatedAt then req.updatedAt else now })) ∧
    (req.id ≠ "" → (∃ r ∈ tbl, r.id = req.id) →
      upsertNoteHandler tbl userID req now freshId =
        some (tbl.map fun n => if n.id == req.id && n.userID == userID then
                { n with title := req.title, content := req.content,
                         tags := req.tags, parentFolderID := req.parentFolderID,
                         updatedAt := if 0 < req.updatedAt then req.updatedAt else now }
              else n,
              { id := req.id, title := req.title, content := req.content,
                tags := req.tags, parentFolderID := req.parentFolderID,
                createdAt := if 0 < req.createdAt then req.createdAt else now,
                updatedAt := if 0 < req.updatedAt then req.updatedAt else now })) ∧
    (0 < req.createdAt →
      (if 0 < req.createdAt then req.createdAt else now) = req.createdAt) ∧
    (req.createdAt ≤ 0 →
      (if 0 < req.createdAt then req.createdAt else now) = now) ∧
    (0 < req.updatedAt →
      (if 0 < req.updatedAt then req.updatedAt else now) = req.updatedAt) ∧
    (req.updatedAt ≤ 0 →
      (if 0 < req.updatedAt then req.updatedAt else now) = now) := by
  have hbt : (req.title == "") = false := by simp [htitle]
  refine ⟨?_, ?_, ?_, fun h => if_pos h, fun h => if_neg (not_lt.mpr h),
    fun h => if_pos h, fun h => if_neg (not_lt.mpr h)⟩
  · intro hid hfresh
    have hb : (req.id == "") = true := by simp [hid]
    have hnex : ¬ ∃ x ∈ tbl, x.id = freshId := by
      rintro ⟨x, hx, hxe⟩
      exact hfresh x hx hxe
    simp [upsertNoteHandler, ServerDB.UpsertNote, hbt, hb, hnex, noteResponse]
  · intro hid hfresh
    have hb : (req.id == "") = false := by simp [hid]
    have hnex : ¬ ∃ x ∈ tbl, x.id = req.id := by
      rintro ⟨x, hx, hxe⟩
      exact hfresh x hx hxe
    simp [upsertNoteHandler, ServerDB.UpsertNote, hbt, hb, hnex, noteResponse]
  · intro hid hex
    have hb : (req.id == "") = false := by simp [hid]
    simp [upsertNoteHandler, ServerDB.UpsertNote, hbt, hb, hex, noteResponse]

/-- Witness for C3, on the mint path with mixed timestamps: the stored
row keeps the submitted positive `createdAt` 5 while the non-positive
`updatedAt` is replaced by the server clock 999. -/
theorem upsertNoteHandler_timestamps_witness :
    upsertNoteHandler [] 2 c3req 999 (r"f") =
      some ([{ id := r"f", userID := 2, title := r"t", content := r"c",
               tags := r"[]", createdAt := 5, updatedAt := 999 }],
            { id := r"f", title := r"t", content := r"c", tags := r"[]",
              createdAt := 5, updatedAt := 999 }) := by
  have h := (upsertNoteHandler_timestamps [] 2 c3req 999 (r"f")
    (by decide)).1 (by rfl) (by simp)
  rw [h]
  rfl

/-! ### C4 — which mutations mark a row pending -/

/-- C4 counterexample: `SetNotePassword` on a synced note re-stamps
`updated_at` but leaves `sync_status` at `'synced'`, contradicting the
claim that every mutating call sets it to `'pending'`. -/
theorem setNotePassword_keeps_syncStatus :
    DB.SetNotePassword [{ id := 1, syncStatus := SyncStatusSynced }] 1 (r"pw") 5 =
      [{ id := 1, password := r"pw", updatedAt := 5, syncStatus := SyncStatusSynced }] ∧
    SyncStatusSynced ≠ SyncStatusPending :=
  ⟨rfl, by decide⟩

/-- C4 (amended): the note mutations create/update/soft-delete re-stamp
`updatedAt` and set `syncStatus = 'pending'`, and a freshly created note
starts `'pending'`; `SetNotePassword` re-stamps `updatedAt` but leaves
every row's `syncStatus` unchanged; folder rows carry no sync status at
all, and the folder password/delete calls likewise only re-stamp
`updatedAt` (and the tombstone flag). -/
theorem localStore_mutations_stamp (db : List Note) (fdb : List Folder) (id : Int)
    (title content password : String) (tags : List String) (now : Int) :
    (({ id := DB.freshNoteId db, title := title, content := content,
        tags := jsonMarshal tags, createdAt := now, updatedAt := now,
        syncStatus := SyncStatusPending } : Note) ∈
          DB.CreateNote db title content tags now) ∧
    (∀ n ∈ DB.UpdateNote db id title content tags now,
      n.id = id → n.syncStatus = SyncStatusPending ∧ n.updatedAt = now) ∧
    (∀ n ∈ DB.DeleteNote db id now,
      n.id = id → n.syncStatus = SyncStatusPending ∧ n.updatedAt = now ∧
        n.deleted = true) ∧
    (∀ n ∈ DB.SetNotePassword db id password now,
      n.id = id → n.password = password ∧ n.updatedAt = now) ∧
    (DB.SetNotePassword db id password now).map Note.syncStatus =
      db.map Note.syncStatus ∧
    (∀ f ∈ DB.SetFolderPassword fdb id password now, f.id = id → f.updatedAt = now) ∧
    (∀ f ∈ DB.DeleteFolder fdb id now,
      f.id = id → f.updatedAt = now ∧ f.deleted = true) := by
  refine ⟨?_, ?_, ?_, ?_, ?_, ?_, ?_⟩
  · simp [DB.CreateNote]
  · intro n hn hid
    obtain ⟨m, hm, rfl⟩ := List.mem_map.mp hn
    by_cases h : m.id = id
    · simp [h]
    · simp [h] at hid
  · intro n hn hid
    obtain ⟨m, hm, rfl⟩ := List.mem_map.mp hn
    by_cases h : m.id = id
    · simp [h]
    · simp [h] at hid
  · intro n hn hid
    obtain ⟨m, hm, rfl⟩ := List.mem_map.mp hn
    by_cases h : m.id = id
    · simp [h]
    · simp [h] at hid
  · show (db.map _).map Note.syncStatus = db.map Note.syncStatus
    rw [List.map_map]
    apply List.map_congr_left
    intro n _
    by_cases h : n.id = id <;> simp [h]
  · intro f hf hid
    obtain ⟨m, hm, rfl⟩ := List.mem_map.mp hf
    by_cases h : m.id = id
    · simp [h]
    · simp [h] at hid
  · intro f hf hid
    obtain ⟨m, hm, rfl⟩ := List.mem_map.mp hf
    by_cases h : m.id = id
    · simp [h]
    · simp [h] at hid

/-- Witness for C4: a password change on a synced row keeps the synced
status while an update marks it pending. -/
theorem localStore_mutations_stamp_witness :
    (DB.SetNotePassword [{ id := 3, syncStatus := SyncStatusSynced }] 3
        (r"pw") 9).map Note.syncStatus =
      ([{ id := 3, syncStatus := SyncStatusSynced }] : List Note).map
        Note.syncStatus ∧
    (({ id := DB.freshNoteId [], title := r"t", content := r"c",
        tags := jsonMarshal [], createdAt := 4, updatedAt := 4,
        syncStatus := SyncStatusPending } : Note) ∈
          DB.CreateNote [] (r"t") (r"c") [] 4) :=
  ⟨(localStore_mutations_stamp [{ id := 3, syncStatus := SyncStatusSynced }] []
      3 (r"t") (r"c") (r"pw") [] 9).2.2.2.2.1,
   (localStore_mutations_stamp [] [] 3 (r"t") (r"c") (r"pw") [] 4).1⟩

/-! ### C6 — per-user scoping of the remote store -/

/-- C6: every remote read, list, and delete is scoped by
`(id, ownerUserID)` — a read/list by one user returns only that user's
rows, a delete never removes another user's row, and an upsert naming an
id owned by a different user leaves the table completely unchanged while
still returning normally (the silent ownership guard). -/
theorem remoteStore_userScoped (tbl : List ServerNote) (u1 u2 : Int)
    (id sid title content tags pfid freshId : String) (ca ua since : Int)
    (hne : u1 ≠ u2) :
    (∀ r, ServerDB.GetNote tbl id u1 = some r → r.userID = u1) ∧
    (∀ r ∈ ServerDB.ListNotesByUser tbl u1, r.userID = u1) ∧
    (∀ r ∈ ServerDB.GetNotesSince tbl u1 since, r.userID = u1) ∧
    (∀ r ∈ tbl, r.userID = u2 → r ∈ ServerDB.DeleteNote tbl id u1) ∧
    (sid ≠ "" → (∃ r ∈ tbl, r.id = sid) →
      (∀ r ∈ tbl, r.id = sid → r.userID = u2) →
      (ServerDB.UpsertNote tbl u1 sid title content tags pfid ca ua freshId).1 = tbl) := by
  refine ⟨?_, ?_, ?_, ?_, ?_⟩
  · intro r hr
    have h := List.find?_some hr
    simp at h
    exact h.2
  · intro r hr
    rw [ServerDB.ListNotesByUser, mem_sortDescBy] at hr
    have h := (List.mem_filter.mp hr).2
    simpa using h
  · intro r hr
    rw [ServerDB.GetNotesSince, mem_sortDescBy] at hr
    have h := (List.mem_filter.mp hr).2
    simp at h
    exact h.1
  · intro r hr hu
    refine List.mem_filter.mpr ⟨hr, ?_⟩
    have : (r.userID == u1) = false := by
      simp [hu]
      exact fun hcon => hne hcon.symm
    simp [this]
  · intro hsid hex hown
    have hb : (sid == "") = false := by simp [hsid]
    have hany : (tbl.any fun n => n.id == (if sid == "" then freshId else sid)) = true := by
      rw [List.any_eq_true]
      obtain ⟨r, hr, hrid⟩ := hex
      exact ⟨r, hr, by simp [hb, hrid]⟩
    have hfix : ∀ n ∈ tbl,
        (if n.id == (if sid == "" then freshId else sid) && n.userID == u1 then
          { n with title := title, content := content, tags := tags,
                   parentFolderID := pfid, updatedAt := ua } else n) = n := by
      intro n hn
      by_cases h : n.id = sid
      · have hu2 := hown n hn h
        have hne2 : (n.userID == u1) = false := by
          simp [hu2]
          exact fun hcon => hne hcon.symm
        simp [hb, hne2]
      · simp [hb, h]
    show (ServerDB.UpsertNote tbl u1 sid title content tags pfid ca ua freshId).1 = tbl
    simp only [ServerDB.UpsertNote, hany, if_true]
    exact (List.map_congr_left hfix).trans (List.map_id tbl)

/-- Witness for C6: user 1 upserting an id owned by user 2 leaves the
table unchanged. -/
theorem remoteStore_userScoped_witness :
    (ServerDB.UpsertNote [{ id := r"x", userID := 2 }] 1 (r"x") (r"t") (r"c")
        (r"g") (r"") 1 2 (r"f")).1 = [{ id := r"x", userID := 2 }] :=
  (remoteStore_userScoped [{ id := r"x", userID := 2 }] 1 2 (r"x") (r"x") (r"t")
      (r"c") (r"g") (r"") (r"f") 1 2 0 (by decide)).2.2.2.2 (by decide)
    ⟨({ id := r"x", userID := 2 } : ServerNote), by simp, rfl⟩ (by decide)

/-! ### C7 — restore leaves the version history untouched -/

/-- C7: `RestoreNoteVersion` copies the chosen version's title, content
and tags onto the live note, marks it `'pending'` and re-stamps
`updatedAt`, while the `note_versions` table comes back entirely
unchanged — no version row is deleted, renumbered, or added, including
versions newer than the restored one. -/
theorem restoreNoteVersion_frame (notes : List Note) (versions : List NoteVersion)
    (noteID versionID now : Int) (v : NoteVersion)
    (hv : DB.GetNoteVersion versions versionID = some v) :
    DB.RestoreNoteVersion notes versions noteID versionID now =
      some (notes.map fun n => if n.id = noteID then
              { n with title := v.title, content := v.content,
                       tags := jsonMarshal v.tags, updatedAt := now,
                       syncStatus := SyncStatusPending } else n,
            versions) := by
  simp [DB.RestoreNoteVersion, hv]

/-- Witness for C7: restoring version 2 of a three-version note rewrites
the live row and returns the version table unchanged. -/
theorem restoreNoteVersion_frame_witness :
    DB.RestoreNoteVersion [{ id := 1, title := r"old" }] c7versions 1 2 50 =
      some ([{ id := 1, title := r"t2", content := r"c2",
               tags := jsonMarshal [], updatedAt := 50,
               syncStatus := SyncStatusPending }], c7versions) := by
  have h := restoreNoteVersion_frame [{ id := 1, title := r"old" }] c7versions
    1 2 50 c7v2 (by rfl)
  rw [h]
  rfl

/-! ### C10 — the upsert response echoes the request -/

/-- C10: the response of a remote note upsert is built from the
submitted request fields, not from the state actually stored — in
particular, when the silent ownership guard suppresses the write, the
caller still receives a success response echoing its own submitted
title, content, tags and (positive) timestamps, while the stored table
keeps the true owner's values unchanged. -/
theorem upsertNoteHandler_echoes_request (tbl : List ServerNote) (u : Int)
    (req : UpsertNoteRequest) (now : Int) (freshId : String)
    (htitle : req.title ≠ "") (hid : req.id ≠ "")
    (hown : ∀ r ∈ tbl, r.id = req.id → r.userID ≠ u)
    (hex : ∃ r ∈ tbl, r.id = req.id) :
    upsertNoteHandler tbl u req now freshId =
      some (tbl,
        { id := req.id, title := req.title, content := req.content,
          tags := req.tags, parentFolderID := req.parentFolderID,
          createdAt := if 0 < req.createdAt then req.createdAt else now,
          updatedAt := if 0 < req.updatedAt then req.updatedAt else now }) := by
  have hb : (req.id == "") = false := by simp [hid]
  have hany : (tbl.any fun n =>
      n.id == (if req.id == "" then freshId else req.id)) = true := by
    rw [List.any_eq_true]
    obtain ⟨r, hr, hrid⟩ := hex
    exact ⟨r, hr, by simp [hb, hrid]⟩
  have hfix : ∀ n ∈ tbl,
      (if n.id == (if req.id == "" then freshId else req.id) && n.userID == u then
        { n with title := req.title, content := req.content, tags := req.tags,
                 parentFolderID := req.parentFolderID,
                 updatedAt := if 0 < req.updatedAt then req.updatedAt else now }
       else n) = n := by
    intro n hn
    by_cases h : n.id = req.id
    · have hu2 := hown n hn h
      have hne2 : (n.userID == u) = false := by simp [hu2]
      simp [hb, hne2]
    · simp [hb, h]
  have htbl : (ServerDB.UpsertNote tbl u req.id req.title req.content req.tags
      req.parentFolderID (if 0 < req.createdAt then req.createdAt else now)
      (if 0 < req.updatedAt then req.updatedAt else now) freshId).1 = tbl := by
    simp only [ServerDB.UpsertNote, hany, if_true]
    exact (List.map_congr_left hfix).trans (List.map_id tbl)
  have hbt : (req.title == "") = false := by simp [htitle]
  simp only [upsertNoteHandler, hbt, Bool.false_eq_true, if_false,
    Option.some.injEq, Prod.mk.injEq]
  refine ⟨htbl, ?_⟩
  simp [ServerDB.UpsertNote, noteResponse, hb]

/-- Witness for C10: the table keeps the owner's row, yet the caller
gets a success response echoing the submitted fields. -/
theorem upsertNoteHandler_echoes_request_witness :
    upsertNoteHandler [{ id := r"x", userID := 2, title := r"owner" }] 1 c10req
        999 (r"f") =
      some ([{ id := r"x", userID := 2, title := r"owner" }],
        { id := r"x", title := r"mine", content := r"c", tags := r"[]",
          createdAt := if 0 < c10req.createdAt then c10req.createdAt else 999,
          updatedAt := if 0 < c10req.updatedAt then c10req.updatedAt else 999 }) :=
  upsertNoteHandler_echoes_request [{ id := r"x", userID := 2, title := r"owner" }]
    1 c10req 999 (r"f") (by decide) (by decide) (by decide)
    ⟨({ id := r"x", userID := 2, title := r"owner" } : ServerNote), by simp, rfl⟩

/-! ### C8 — upload-phase handling of deleted rows -/

theorem uploadStep_trace (tr : Transport) (acc : List Note × SyncResult × List TCall)
    (n : Note) : (uploadStep tr acc n).2.2 = acc.2.2 ++ uploadCalls n := by
  unfold uploadStep uploadCalls
  cases hd : n.deleted
  · cases hu : tr.upsertNote (uploadReq n) <;> simp [hd, hu]
  · cases hs : (n.serverID == "")
    · cases ht : tr.deleteNote n.serverID <;> simp [hd, hs, ht]
    · simp [hd, hs]

theorem uploadFold_trace (tr : Transport) (l : List Note) :
    ∀ acc : List Note × SyncResult × List TCall,
      (l.foldl (uploadStep tr) acc).2.2 = acc.2.2 ++ l.flatMap uploadCalls := by
  induction l with
  | nil => intro acc; simp
  | cons m ms ih =>
    intro acc
    rw [List.foldl_cons, ih, uploadStep_trace]
    simp

theorem mem_setNoteSynced {db : List Note} {id : Int} {sid : String} {n : Note}
    (h : n ∈ DB.SetNoteSynced db id sid) :
    n ∈ db ∨ n.syncStatus = SyncStatusSynced := by
  obtain ⟨m, hm, rfl⟩ := List.mem_map.mp h
  by_cases hid : m.id = id
  · right; simp [hid]
  · left; simp [hid]; exact hm

theorem mem_setNoteSynced_of_ne {db : List Note} {id : Int} {sid : String}
    {n : Note} (hne : n.id ≠ id) (h : n ∈ db) : n ∈ DB.SetNoteSynced db id sid :=
  List.mem_map.mpr ⟨n, h, by simp [hne]⟩

theorem mem_pds {db : List Note} {id : Int} {n : Note}
    (h : n ∈ DB.PermanentlyDeleteSynced db id) : n ∈ db :=
  (List.mem_filter.mp h).1

theorem mem_pds_of_ne {db : List Note} {id : Int} {n : Note} (hne : n.id ≠ id)
    (h : n ∈ db) : n ∈ DB.PermanentlyDeleteSynced db id :=
  List.mem_filter.mpr ⟨h, by simp [hne]⟩

theorem not_mem_pds_self {db : List Note} {n : Note} (hd : n.deleted = true) :
    n ∉ DB.PermanentlyDeleteSynced db n.id := by
  intro h
  have hp := (List.mem_filter.mp h).2
  simp [hd] at hp

theorem uploadStep_pres_not_mem (tr : Transport)
    (acc : List Note × SyncResult × List TCall) (m n : Note)
    (hp : n.syncStatus = SyncStatusPending) (h : n ∉ acc.1) :
    n ∉ (uploadStep tr acc m).1 := by
  unfold uploadStep
  cases hd : m.deleted
  · cases hu : tr.upsertNote (uploadReq m) <;> simp only [hd, hu] <;> simp
    · exact h
    · intro hmem
      rcases mem_setNoteSynced hmem with h1 | h2
      · exact h h1
      · rw [hp] at h2
        exact absurd h2 (by decide)
  · cases hs : (m.serverID == "")
    · cases ht : tr.deleteNote m.serverID <;> simp only [hd, hs, ht] <;> simp
      · exact h
      · intro hmem
        exact h (mem_pds hmem)
    · simp only [hd, hs]
      simp
      intro hmem
      exact h (mem_pds hmem)

theorem uploadStep_pres_mem (tr : Transport)
    (acc : List Note × SyncResult × List TCall) (m n : Note)
    (hne : n.id ≠ m.id) (h : n ∈ acc.1) : n ∈ (uploadStep tr acc m).1 := by
  unfold uploadStep
  cases hd : m.deleted
  · cases hu : tr.upsertNote (uploadReq m) <;> simp only [hd, hu] <;> simp
    · exact h
    · exact mem_setNoteSynced_of_ne hne h
  · cases hs : (m.serverID == "")
    · cases ht : tr.deleteNote m.serverID <;> simp only [hd, hs, ht] <;> simp
      · exact h
      · exact mem_pds_of_ne hne h
    · simp only [hd, hs]
      simp
      exact mem_pds_of_ne hne h

theorem uploadFold_pres_not_mem (tr : Transport) (l : List Note) :
    ∀ (acc : List Note × SyncResult × List TCall) (n : Note),
      n.syncStatus = SyncStatusPending → n ∉ acc.1 →
      n ∉ (l.foldl (uploadStep tr) acc).1 := by
  induction l with
  | nil => intro acc n _ h; exact h
  | cons m ms ih =>
    intro acc n hp h
    rw [List.foldl_cons]
    exact ih _ n hp (uploadStep_pres_not_mem tr acc m n hp h)

theorem uploadFold_pres_mem (tr : Transport) (l : List Note) :
    ∀ (acc : List Note × SyncResult × List TCall) (n : Note),
      (∀ m ∈ l, n.id ≠ m.id) → n ∈ acc.1 →
      n ∈ (l.foldl (uploadStep tr) acc).1 := by
  induction l with
  | nil => intro acc n _ h; exact h
  | cons m ms ih =>
    intro acc n hne h
    rw [List.foldl_cons]
    exact ih _ n (fun x hx => hne x (List.mem_cons_of_mem m hx))
      (uploadStep_pres_mem tr acc m n (hne m (List.mem_cons_self m ms)) h)

/-- C8: in the upload phase, a pending tombstoned row with an empty
`serverID` is hard-removed locally and contributes no transport call at
all; a tombstoned row with a `serverID` contributes exactly one remote
delete call, after whose success it is removed and after whose failure
the row value is still present (untouched, to be retried); and the
phase's transport trace is exactly the concatenation of the per-row
calls of the pending snapshot. -/
theorem sync_upload_delete_spec (tr : Transport) (db : List Note) (n : Note)
    (hnodup : (db.map Note.id).Nodup) (hn : n ∈ db)
    (hp : n.syncStatus = SyncStatusPending) (hd : n.deleted = true) :
    (uploadPhase tr db).2.2 = (DB.GetPendingNotes db).flatMap uploadCalls ∧
    (n.serverID = "" → uploadCalls n = [] ∧ n ∉ (uploadPhase tr db).1) ∧
    (n.serverID ≠ "" → uploadCalls n = [TCall.deleteNote n.serverID] ∧
      (tr.deleteNote n.serverID = true → n ∉ (uploadPhase tr db).1) ∧
      (tr.deleteNote n.serverID = false → n ∈ (uploadPhase tr db).1)) := by
  have hnP : n ∈ DB.GetPendingNotes db :=
    List.mem_filter.mpr ⟨hn, by simp [hp]⟩
  obtain ⟨P1, P2, hsplit⟩ := List.append_of_mem hnP
  have hnodupP : ((DB.GetPendingNotes db).map Note.id).Nodup :=
    List.Nodup.sublist (List.Sublist.map Note.id (List.filter_sublist db)) hnodup
  rw [hsplit] at hnodupP
  have hids : (∀ m ∈ P1, n.id ≠ m.id) ∧ (∀ m ∈ P2, n.id ≠ m.id) := by
    rw [List.map_append, List.map_cons, List.nodup_append] at hnodupP
    obtain ⟨h1, h2, h3⟩ := hnodupP
    have h4 := (List.nodup_cons.mp h2).1
    constructor
    · intro m hm heq
      exact h3 (List.mem_map_of_mem Note.id hm)
        (by rw [← heq]; exact List.mem_cons_self _ _)
    · intro m hm heq
      exact h4 (by rw [heq]; exact List.mem_map_of_mem Note.id hm)
  refine ⟨?_, ?_, ?_⟩
  · have := uploadFold_trace tr (DB.GetPendingNotes db) (db, {}, [])
    simpa [uploadPhase] using this
  · intro hs
    refine ⟨by simp [uploadCalls, hd, hs], ?_⟩
    unfold uploadPhase
    rw [hsplit, List.foldl_append, List.foldl_cons]
    apply uploadFold_pres_not_mem tr P2 _ n hp
    have hstep : (uploadStep tr (P1.foldl (uploadStep tr) (db, {}, [])) n).1 =
        DB.PermanentlyDeleteSynced (P1.foldl (uploadStep tr) (db, {}, [])).1 n.id := by
      unfold uploadStep
      simp [hd, hs]
    rw [hstep]
    exact not_mem_pds_self hd
  · intro hs
    have hsb : (n.serverID == "") = false := by simp [hs]
    refine ⟨by simp [uploadCalls, hd, hsb], ?_, ?_⟩
    · intro ht
      unfold uploadPhase
      rw [hsplit, List.foldl_append, List.foldl_cons]
      apply uploadFold_pres_not_mem tr P2 _ n hp
      have hstep : (uploadStep tr (P1.foldl (uploadStep tr) (db, {}, [])) n).1 =
          DB.PermanentlyDeleteSynced (P1.foldl (uploadStep tr) (db, {}, [])).1 n.id := by
        unfold uploadStep
        simp [hd, hsb, ht]
      rw [hstep]
      exact not_mem_pds_self hd
    · intro ht
      unfold uploadPhase
      rw [hsplit, List.foldl_append, List.foldl_cons]
      apply uploadFold_pres_mem tr P2 _ n hids.2
      have hstep : (uploadStep tr (P1.foldl (uploadStep tr) (db, {}, [])) n).1 =
          (P1.foldl (uploadStep tr) (db, {}, [])).1 := by
        unfold uploadStep
        simp [hd, hsb, ht]
      rw [hstep]
      exact uploadFold_pres_mem tr P1 _ n hids.1 hn

/-- Witness for C8: a never-synced tombstone is removed with no calls,
and a synced tombstone whose remote delete fails survives the pass. -/
theorem sync_upload_delete_spec_witness :
    uploadCalls ({ id := 1, syncStatus := SyncStatusPending, deleted := true } : Note)
      = [] ∧
    ({ id := 1, syncStatus := SyncStatusPending, deleted := true } : Note) ∉
      (uploadPhase { deleteNote := fun _ => false, upsertNote := fun _ => none,
                     syncNotes := fun _ => none }
        [{ id := 1, syncStatus := SyncStatusPending, deleted := true }]).1 :=
  (sync_upload_delete_spec
      { deleteNote := fun _ => false, upsertNote := fun _ => none,
        syncNotes := fun _ => none }
      [{ id := 1, syncStatus := SyncStatusPending, deleted := true }]
      ({ id := 1, syncStatus := SyncStatusPending, deleted := true } : Note)
      (by decide) (by simp) (by rfl) (by rfl)).2.1 (by rfl)

/-! ### C5 — hash-deduplicated, gap-free version history -/

theorem le_foldl_max (l : List Int) :
    ∀ a : Int, a ≤ l.foldl max a ∧ ∀ x ∈ l, x ≤ l.foldl max a := by
  induction l with
  | nil => intro a; exact ⟨le_refl a, by simp⟩
  | cons y ys ih =>
    intro a
    obtain ⟨h1, h2⟩ := ih (max a y)
    rw [List.foldl_cons]
    refine ⟨le_trans (le_max_left a y) h1, ?_⟩
    intro x hx
    rcases List.mem_cons.mp hx with rfl | hx2
    · exact le_trans (le_max_right a x) h1
    · exact h2 x hx2

theorem versionNum_le_max (vs : List NoteVersion) (nid : Int) (v : NoteVersion)
    (hv : v ∈ vs.filter (fun v => v.noteID == nid)) :
    v.versionNum ≤ DB.maxVersionNum vs nid :=
  (le_foldl_max _ 0).2 _ (List.mem_map_of_mem NoteVersion.versionNum hv)

theorem latestPick_mem (l : List NoteVersion) :
    ∀ (acc : Option NoteVersion) (a : NoteVersion),
      l.foldl DB.latestPick acc = some a → a ∈ l ∨ acc = some a := by
  induction l with
  | nil => intro acc a h; right; exact h
  | cons v vs ih =>
    intro acc a h
    rw [List.foldl_cons] at h
    rcases ih _ a h with h1 | h2
    · exact Or.inl (List.mem_cons_of_mem _ h1)
    · cases acc with
      | none =>
        simp [DB.latestPick] at h2
        exact Or.inl (by rw [← h2]; exact List.mem_cons_self _ _)
      | some b =>
        by_cases hlt : b.versionNum < v.versionNum
        · simp [DB.latestPick, hlt] at h2
          exact Or.inl (by rw [← h2]; exact List.mem_cons_self _ _)
        · simp [DB.latestPick, hlt] at h2
          right
          rw [h2]

theorem latestVersion_append_fresh (vs : List NoteVersion) (nid : Int)
    (x : NoteVersion) (hx : x.noteID = nid)
    (hgt : ∀ v ∈ vs.filter (fun v => v.noteID == nid),
      v.versionNum < x.versionNum) :
    DB.latestVersion (vs ++ [x]) nid = some x := by
  unfold DB.latestVersion
  rw [List.filter_append]
  have hfx : List.filter (fun v => v.noteID == nid) [x] = [x] := by simp [hx]
  rw [hfx, List.foldl_append]
  cases hacc : (vs.filter (fun v => v.noteID == nid)).foldl DB.latestPick none with
  | none => simp [DB.latestPick]
  | some a =>
    have ha : a ∈ vs.filter (fun v => v.noteID == nid) := by
      rcases latestPick_mem _ _ _ hacc with h1 | h2
      · exact h1
      · exact absurd h2 (by simp)
    simp [DB.latestPick, hgt a ha]

theorem foldl_max_range (n : Nat) :
    ((List.range' 1 n).map (fun j => Int.ofNat j)).foldl max 0 = Int.ofNat n := by
  induction n with
  | zero => rfl
  | succ m ih =>
    rw [List.range'_concat, List.map_append, List.foldl_append, ih]
    show max (Int.ofNat m) (Int.ofNat (1 + 1 * m)) = Int.ofNat (m + 1)
    rw [max_eq_right (by simp only [Int.ofNat_eq_coe]; push_cast; omega)]
    simp only [Int.ofNat_eq_coe]
    push_cast
    omega

theorem maxVersionNum_eq (vs : List NoteVersion) (nid : Int) (k : Nat)
    (hk : versionNums vs nid = (List.range' 1 k).map (fun j => Int.ofNat j)) :
    DB.maxVersionNum vs nid = Int.ofNat k := by
  have h0 : DB.maxVersionNum vs nid = (versionNums vs nid).foldl max 0 := rfl
  rw [h0, hk, foldl_max_range]

theorem versionNums_append_same (vs : List NoteVersion) (x : NoteVersion)
    (nid : Int) (hx : x.noteID = nid) :
    versionNums (vs ++ [x]) nid = versionNums vs nid ++ [x.versionNum] := by
  unfold versionNums
  rw [List.filter_append, List.map_append]
  congr 1
  simp [hx]

theorem versionNums_append_other (vs : List NoteVersion) (x : NoteVersion)
    (nid : Int) (hx : x.noteID ≠ nid) :
    versionNums (vs ++ [x]) nid = versionNums vs nid := by
  unfold versionNums
  rw [List.filter_append]
  simp [hx]

theorem saveNoteVersion_inv (vs : List NoteVersion) (nid : Int) (t c : String)
    (g : List String) (now : Int) (h : versionInv vs) :
    versionInv (DB.SaveNoteVersion vs nid t c g now) := by
  unfold DB.SaveNoteVersion
  by_cases hdup : DB.dupOfLatest vs nid (shortHash c) = true
  · simpa [hdup] using h
  · rw [Bool.not_eq_true] at hdup
    simp only [hdup, Bool.false_eq_true, if_false]
    intro nid2
    by_cases hnid : nid = nid2
    · subst hnid
      obtain ⟨k, hk⟩ := h nid
      refine ⟨k + 1, ?_⟩
      rw [versionNums_append_same _ _ _ rfl]
      dsimp only
      rw [hk, maxVersionNum_eq vs nid k hk, List.range'_concat, List.map_append]
      congr 1
      simp
      omega
    · obtain ⟨k, hk⟩ := h nid2
      exact ⟨k, by rw [versionNums_append_other _ _ _ (fun hcon => hnid hcon), hk]⟩

theorem applySaves_inv_aux (ops : List SaveOp) :
    ∀ vs : List NoteVersion, versionInv vs →
      versionInv (ops.foldl (fun vs op =>
        DB.SaveNoteVersion vs op.noteID op.title op.content op.tags op.now) vs) := by
  induction ops with
  | nil => intro vs h; exact h
  | cons op rest ih =>
    intro vs h
    rw [List.foldl_cons]
    exact ih _ (saveNoteVersion_inv vs op.noteID op.title op.content op.tags op.now h)

theorem applySaves_inv (ops : List SaveOp) : versionInv (applySaves ops) :=
  applySaves_inv_aux ops [] (fun _ => ⟨0, rfl⟩)

theorem saveNoteVersion_twice (vs : List NoteVersion) (nid : Int) (t c : String)
    (g : List String) (now : Int) (t2 : String) (g2 : List String) (now2 : Int) :
    DB.SaveNoteVersion (DB.SaveNoteVersion vs nid t c g now) nid t2 c g2 now2 =
      DB.SaveNoteVersion vs nid t c g now := by
  by_cases hdup : DB.dupOfLatest vs nid (shortHash c) = true
  · have h1 : DB.SaveNoteVersion vs nid t c g now = vs := by
      unfold DB.SaveNoteVersion
      simp [hdup]
    rw [h1]
    unfold DB.SaveNoteVersion
    simp [hdup]
  · rw [Bool.not_eq_true] at hdup
    have h1 : DB.SaveNoteVersion vs nid t c g now = vs ++
        [{ id := DB.freshVersionId vs, noteID := nid, title := t, content := c,
           tags := g, hash := shortHash c,
           versionNum := DB.maxVersionNum vs nid + 1, createdAt := now }] := by
      unfold DB.SaveNoteVersion
      simp [hdup]
    have hlatest : DB.latestVersion (vs ++
        [{ id := DB.freshVersionId vs, noteID := nid, title := t, content := c,
           tags := g, hash := shortHash c,
           versionNum := DB.maxVersionNum vs nid + 1, createdAt := now }]) nid =
        some { id := DB.freshVersionId vs, noteID := nid, title := t,
               content := c, tags := g, hash := shortHash c,
               versionNum := DB.maxVersionNum vs nid + 1, createdAt := now } := by
      apply latestVersion_append_fresh
      · rfl
      · intro v hv
        have hle := versionNum_le_max vs nid v hv
        show v.versionNum < DB.maxVersionNum vs nid + 1
        omega
    have hdup2 : DB.dupOfLatest (vs ++
        [{ id := DB.freshVersionId vs, noteID := nid, title := t, content := c,
           tags := g, hash := shortHash c,
           versionNum := DB.maxVersionNum vs nid + 1, createdAt := now }]) nid
        (shortHash c) = true := by
      unfold DB.dupOfLatest
      rw [hlatest]
      simp
    rw [h1]
    unfold DB.SaveNoteVersion
    simp [hdup2]

/-- C5: `SaveNoteVersion` hashes the content (first 12 hex characters of
its SHA-256, checked here on a test vector); when the newest existing
version of the note carries the same hash no row is written, otherwise a
row with `max(existing) + 1` is appended — hence after any sequence of
saves every note's version numbers are exactly `1, 2, …, k` (strictly
increasing from 1, no duplicates), and saving twice in a row with
identical content writes exactly one row. -/
theorem saveNoteVersion_spec :
    (∀ ops : List SaveOp, versionInv (applySaves ops)) ∧
    (∀ (vs : List NoteVersion) (nid : Int) (t c : String) (g : List String)
       (now : Int) (t2 : String) (g2 : List String) (now2 : Int),
      DB.SaveNoteVersion (DB.SaveNoteVersion vs nid t c g now) nid t2 c g2 now2 =
        DB.SaveNoteVersion vs nid t c g now) ∧
    (∀ (vs : List NoteVersion) (nid : Int) (t c : String) (g : List String)
       (now : Int) (last : NoteVersion),
      DB.latestVersion vs nid = some last → last.hash = shortHash c →
      DB.SaveNoteVersion vs nid t c g now = vs) ∧
    (∀ (vs : List NoteVersion) (nid : Int) (t c : String) (g : List String)
       (now : Int),
      DB.dupOfLatest vs nid (shortHash c) = false →
      DB.SaveNoteVersion vs nid t c g now =
        vs ++ [{ id := DB.freshVersionId vs, noteID := nid, title := t,
                 content := c, tags := g, hash := shortHash c,
                 versionNum := DB.maxVersionNum vs nid + 1, createdAt := now }]) ∧
    shortHash (r"abc") = r"ba7816bf8f01" := by
  refine ⟨applySaves_inv, saveNoteVersion_twice, ?_, ?_, by rfl⟩
  · intro vs nid t c g now last hl hh
    have hd : DB.dupOfLatest vs nid (shortHash c) = true := by
      unfold DB.dupOfLatest
      rw [hl]
      simp [hh]
    unfold DB.SaveNoteVersion
    simp [hd]
  · intro vs nid t c g now hdup
    unfold DB.SaveNoteVersion
    simp [hdup]

/-- Witness for C5: a save whose content hash equals the newest
version's hash writes nothing. -/
theorem saveNoteVersion_spec_witness :
    DB.SaveNoteVersion
        [{ id := 1, noteID := 1, hash := shortHash (r"x"), versionNum := 1 }] 1
        (r"t") (r"x") [] 9 =
      [{ id := 1, noteID := 1, hash := shortHash (r"x"), versionNum := 1 }] :=
  saveNoteVersion_spec.2.2.1
    [{ id := 1, noteID := 1, hash := shortHash (r"x"), versionNum := 1 }] 1
    (r"t") (r"x") [] 9
    ({ id := 1, noteID := 1, hash := shortHash (r"x"), versionNum := 1 } :
      NoteVersion)
    (by rfl) (by rfl)

/-! ### C9 — what the LIKE-based search actually matches -/

theorem bool_eq_of_iff {a b : Bool} (h : a = true ↔ b = true) : a = b := by
  cases a <;> cases b <;> simp_all

theorem list_all_congr {l : List α} {p q : α → Bool}
    (h : ∀ x ∈ l, p x = q x) : l.all p = l.all q := by
  induction l with
  | nil => rfl
  | cons x xs ih =>
    simp only [List.all_cons]
    rw [h x (List.mem_cons_self _ _), ih (fun y hy => h y (List.mem_cons_of_mem _ hy))]

theorem foldChar_eq_quote {c : Char} (h : foldChar c = '"') : c = '"' := by
  unfold foldChar at h
  split at h <;> first | exact h | exact absurd h (by decide)

theorem foldChar_eq_comma {c : Char} (h : foldChar c = ',') : c = ',' := by
  unfold foldChar at h
  split at h <;> first | exact h | exact absurd h (by decide)

theorem likeMatch_pct (ts : List Char) : likeMatch ['%'] ts = true := by
  show (if '%' = '%' then ts.tails.any (fun suf => likeMatch [] suf) else _) = true
  rw [if_pos rfl, List.any_eq_true]
  refine ⟨[], ?_, rfl⟩
  rw [List.mem_tails]
  exact List.nil_suffix

theorem likeMatch_tail_pct (s : List Char) (hs : ∀ c ∈ s, c ≠ '%' ∧ c ≠ '_') :
    ∀ t, likeMatch (s ++ ['%']) t = startsWithCI s t := by
  induction s with
  | nil =>
    intro t
    rw [List.nil_append, likeMatch_pct]
    rfl
  | cons c cs ih =>
    intro t
    obtain ⟨hc1, hc2⟩ := hs c (List.mem_cons_self _ _)
    have ihs : ∀ x ∈ cs, x ≠ '%' ∧ x ≠ '_' :=
      fun x hx => hs x (List.mem_cons_of_mem _ hx)
    rw [List.cons_append]
    cases t with
    | nil =>
      show (if c = '%' then _ else false) = false
      rw [if_neg hc1]
    | cons d ds =>
      show (if c = '%' then _ else if c = '_' then likeMatch (cs ++ ['%']) ds
        else (foldChar c == foldChar d) && likeMatch (cs ++ ['%']) ds) =
        ((foldChar c == foldChar d) && startsWithCI cs ds)
      rw [if_neg hc1, if_neg hc2, ih ihs ds]

theorem containsCI_eq_any_tails (s : List Char) :
    ∀ t, containsCI s t = t.tails.any (fun suf => startsWithCI s suf) := by
  intro t
  induction t with
  | nil =>
    show s.isEmpty = _
    cases s <;> rfl
  | cons c ts ih =>
    show (startsWithCI s (c :: ts) || containsCI s ts) = _
    rw [ih, List.tails_cons, List.any_cons]

theorem likeMatch_pat_eq_contains (s t : List Char)
    (hs : ∀ c ∈ s, c ≠ '%' ∧ c ≠ '_') :
    likeMatch ('%' :: (s ++ ['%'])) t = containsCI s t := by
  show (if '%' = '%' then t.tails.any (fun suf => likeMatch (s ++ ['%']) suf)
    else _) = _
  rw [if_pos rfl, containsCI_eq_any_tails]
  congr 1
  funext suf
  exact likeMatch_tail_pct s hs suf

theorem startsWithCI_iff (s : List Char) :
    ∀ t, startsWithCI s t = true ↔ ∃ r, fm t = fm s ++ r := by
  induction s with
  | nil =>
    intro t
    simp only [startsWithCI, fm, List.map_nil, List.nil_append, true_iff]
    exact ⟨t.map foldChar, rfl⟩
  | cons a as ih =>
    intro t
    cases t with
    | nil =>
      simp only [startsWithCI, fm, List.map_nil, List.map_cons]
      constructor
      · intro h
        cases h
      · rintro ⟨r, hr⟩
        cases hr
    | cons b bs =>
      show ((foldChar a == foldChar b) && startsWithCI as bs) = true ↔ _
      rw [Bool.and_eq_true, beq_iff_eq]
      constructor
      · rintro ⟨h1, h2⟩
        obtain ⟨r, hr⟩ := (ih bs).mp h2
        refine ⟨r, ?_⟩
        show foldChar b :: bs.map foldChar = (foldChar a :: as.map foldChar) ++ r
        rw [← h1, List.cons_append]
        exact congrArg _ hr
      · rintro ⟨r, hr⟩
        have hr' : foldChar b :: bs.map foldChar =
            foldChar a :: (as.map foldChar ++ r) := hr
        injection hr' with h1 h2
        exact ⟨h1.symm, (ih bs).mpr ⟨r, h2⟩⟩

theorem containsCI_iff (s : List Char) :
    ∀ t, containsCI s t = true ↔ ∃ p r, fm t = p ++ fm s ++ r := by
  intro t
  induction t with
  | nil =>
    show s.isEmpty = true ↔ _
    cases s with
    | nil =>
      simp only [List.isEmpty_nil, fm, List.map_nil, List.append_nil, true_iff]
      exact ⟨[], [], by simp⟩
    | cons a as =>
      constructor
      · intro h
        exact absurd h (by simp)
      · rintro ⟨p, r, hr⟩
        exact absurd hr.symm (by simp [fm])
  | cons c ts ih =>
    show (startsWithCI s (c :: ts) || containsCI s ts) = true ↔ _
    rw [Bool.or_eq_true, ih, startsWithCI_iff]
    constructor
    · rintro (⟨r, hr⟩ | ⟨p, r, hr⟩)
      · exact ⟨[], r, by simpa using hr⟩
      · refine ⟨foldChar c :: p, r, ?_⟩
        show foldChar c :: fm ts = _
        rw [hr, List.cons_append, List.cons_append]
    · rintro ⟨p, r, hr⟩
      cases p with
      | nil => exact Or.inl ⟨r, by simpa using hr⟩
      | cons x p2 =>
        have hr' : foldChar c :: fm ts = x :: (p2 ++ fm s ++ r) := hr
        injection hr' with h1 h2
        exact Or.inr ⟨p2, r, h2⟩

theorem quote_not_mem_fm {l : List Char} (h : '"' ∉ l) : '"' ∉ fm l := by
  intro hc
  obtain ⟨c, hcl, hcq⟩ := List.mem_map.mp hc
  rw [← foldChar_eq_quote hcq] at h
  exact h hcl

theorem escChar_plain {c : Char} (h : plainChar c = true) : escChar c = [c] := by
  unfold plainChar at h
  simp only [Bool.not_eq_eq_eq_not, Bool.not_true, Bool.or_eq_false_iff,
    decide_eq_false_iff_not] at h
  obtain ⟨⟨⟨⟨⟨h1, h2⟩, h3⟩, h4⟩, h5⟩, h6⟩ := h
  have hn : c ≠ '\n' := by intro hc; rw [hc] at h3; exact h3 (by decide)
  have hr : c ≠ '\r' := by intro hc; rw [hc] at h3; exact h3 (by decide)
  have ht : c ≠ '\t' := by intro hc; rw [hc] at h3; exact h3 (by decide)
  unfold escChar
  rw [if_neg h1, if_neg h2, if_neg hn, if_neg hr, if_neg ht, if_neg (by simp [h3, h4, h5, h6])]

theorem flatMap_escChar_plain (l : List Char)
    (h : ∀ c ∈ l, plainChar c = true) : l.flatMap escChar = l := by
  induction l with
  | nil => rfl
  | cons c cs ih =>
    rw [List.flatMap_cons, escChar_plain (h c (List.mem_cons_self _ _)),
      ih (fun x hx => h x (List.mem_cons_of_mem _ hx))]
    rfl

theorem jsonMarshal_clean (ts : List String)
    (h : ∀ x ∈ ts, ∀ c ∈ x.data, plainChar c = true) :
    (jsonMarshal ts).data = encList (ts.map String.data) := by
  show encList (ts.map (fun t => t.data.flatMap escChar)) = _
  congr 1
  apply List.map_congr_left
  intro x hx
  exact flatMap_escChar_plain x.data (h x hx)

theorem fm_encElems (L : List (List Char)) :
    fm (encElems L) = encElems (L.map fm) := by
  induction L with
  | nil => rfl
  | cons x r ih =>
    cases r with
    | nil =>
      show fm ('"' :: (x ++ ['"'])) = '"' :: (fm x ++ ['"'])
      simp [fm]
      decide
    | cons y r2 =>
      show fm ('"' :: (x ++ ['"']) ++ ',' :: encElems (y :: r2)) =
        '"' :: (fm x ++ ['"']) ++ ',' :: encElems ((y :: r2).map fm)
      rw [← ih]
      simp [fm]
      decide

theorem fm_encList (L : List (List Char)) :
    fm (encList L) = encList (L.map fm) := by
  show fm ('[' :: (encElems L ++ [']'])) = '[' :: (encElems (L.map fm) ++ [']'])
  rw [← fm_encElems]
  simp [fm]
  decide

theorem encElems_single (x : List Char) : encElems [x] = '"' :: (x ++ '"' :: []) :=
  rfl

theorem encElems_two (x y : List Char) (r2 : List (List Char)) :
    encElems (x :: y :: r2) = '"' :: (x ++ '"' :: ',' :: encElems (y :: r2)) := by
  show '"' :: (x ++ ['"']) ++ ',' :: encElems (y :: r2) = _
  simp [List.cons_append, List.append_assoc]

theorem encElems_head (y : List Char) (r : List (List Char)) :
    ∃ w, encElems (y :: r) = '"' :: w := by
  cases r with
  | nil => exact ⟨y ++ '"' :: [], encElems_single y⟩
  | cons z r2 => exact ⟨y ++ '"' :: ',' :: encElems (z :: r2), encElems_two y z r2⟩

theorem append_singleton_inj {s t : List Char} {x y : Char}
    (h : s ++ [x] = t ++ [y]) : s = t ∧ x = y := by
  have h1 := congrArg List.reverse h
  simp only [List.reverse_append, List.reverse_cons, List.reverse_nil,
    List.nil_append, List.singleton_append] at h1
  injection h1 with hxy hst
  exact ⟨List.reverse_injective (by rw [hst]), hxy⟩

theorem split_first_quote (l : List Char) :
    '"' ∉ l ∨ ∃ l1 l2, l = l1 ++ '"' :: l2 ∧ '"' ∉ l1 := by
  induction l with
  | nil => exact Or.inl (by simp)
  | cons c cs ih =>
    by_cases hc : c = '"'
    · exact Or.inr ⟨[], cs, by rw [hc]; rfl, by simp⟩
    · rcases ih with h | ⟨l1, l2, heq, hq⟩
      · refine Or.inl ?_
        simp only [List.mem_cons]
        rintro (h1 | h2)
        · exact hc h1.symm
        · exact h h2
      · refine Or.inr ⟨c :: l1, l2, by rw [heq]; rfl, ?_⟩
        simp only [List.mem_cons]
        rintro (h1 | h2)
        · exact hc h1.symm
        · exact hq h2

theorem eq_of_noquote : ∀ (x : List Char) {y p q : List Char}, '"' ∉ x → '"' ∉ y →
    x ++ '"' :: p = y ++ '"' :: q → x = y ∧ p = q := by
  intro x
  induction x with
  | nil =>
    intro y p q hx hy h
    cases y with
    | nil =>
      simp only [List.nil_append] at h
      injection h with _ h2
      exact ⟨rfl, h2⟩
    | cons b bs =>
      simp only [List.nil_append, List.cons_append] at h
      injection h with h1 h2
      refine absurd ?_ hy
      rw [h1]
      exact List.mem_cons_self _ _
  | cons a as ih =>
    intro y p q hx hy h
    cases y with
    | nil =>
      simp only [List.cons_append, List.nil_append] at h
      injection h with h1 h2
      refine absurd ?_ hx
      rw [← h1]
      exact List.mem_cons_self _ _
    | cons b bs =>
      simp only [List.cons_append] at h
      injection h with h1 h2
      have hx' : '"' ∉ as := fun hm => hx (List.mem_cons_of_mem _ hm)
      have hy' : '"' ∉ bs := fun hm => hy (List.mem_cons_of_mem _ hm)
      obtain ⟨he, hp⟩ := ih hx' hy' h2
      exact ⟨by rw [h1, he], hp⟩

theorem body_occ {U : List Char} (hU : '"' ∉ U) :
    ∀ (L : List (List Char)), (∀ x ∈ L, '"' ∉ x) →
      ∀ a b, encElems L = a ++ '"' :: (U ++ '"' :: b) →
      U ∈ L ∨ U = [','] := by
  intro L
  induction L with
  | nil =>
    intro _ a b h
    rw [show encElems [] = [] from rfl] at h
    exact absurd h.symm (by simp)
  | cons x r ih =>
    intro hL a b h
    have hx : '"' ∉ x := hL x (List.mem_cons_self _ _)
    cases r with
    | nil =>
      rw [encElems_single] at h
      rcases split_first_quote a with ha | ⟨a1, a2, rfl, ha1⟩
      · have h0 : ([] : List Char) ++ '"' :: (x ++ '"' :: []) =
            a ++ '"' :: (U ++ '"' :: b) := h
        obtain ⟨hae, h2⟩ := eq_of_noquote [] (by simp) ha h0
        obtain ⟨hxu, _⟩ := eq_of_noquote x hx hU h2
        exact Or.inl (by rw [← hxu]; exact List.mem_cons_self _ _)
      · have h0 : ([] : List Char) ++ '"' :: (x ++ '"' :: []) =
            a1 ++ '"' :: (a2 ++ '"' :: (U ++ '"' :: b)) := by
          simpa [List.append_assoc] using h
        obtain ⟨hae, h2⟩ := eq_of_noquote [] (by simp) ha1 h0
        rcases split_first_quote a2 with ha2 | ⟨a3, a4, rfl, ha3⟩
        · obtain ⟨hxa2, h3⟩ := eq_of_noquote x hx ha2 h2
          exact absurd h3.symm (by simp)
        · have h2' : x ++ '"' :: [] =
              a3 ++ '"' :: (a4 ++ '"' :: (U ++ '"' :: b)) := by
            simpa [List.append_assoc] using h2
          obtain ⟨hxa3, h3⟩ := eq_of_noquote x hx ha3 h2'
          exact absurd h3.symm (by simp)
    | cons y r2 =>
      rw [encElems_two] at h
      rcases split_first_quote a with ha | ⟨a1, a2, rfl, ha1⟩
      · have h0 : ([] : List Char) ++ '"' :: (x ++ '"' :: ',' :: encElems (y :: r2)) =
            a ++ '"' :: (U ++ '"' :: b) := h
        obtain ⟨hae, h2⟩ := eq_of_noquote [] (by simp) ha h0
        obtain ⟨hxu, _⟩ := eq_of_noquote x hx hU h2
        exact Or.inl (by rw [← hxu]; exact List.mem_cons_self _ _)
      · have h0 : ([] : List Char) ++ '"' :: (x ++ '"' :: ',' :: encElems (y :: r2)) =
            a1 ++ '"' :: (a2 ++ '"' :: (U ++ '"' :: b)) := by
          simpa [List.append_assoc] using h
        obtain ⟨hae, h2⟩ := eq_of_noquote [] (by simp) ha1 h0
        rcases split_first_quote a2 with ha2 | ⟨a3, a4, rfl, ha3⟩
        · obtain ⟨hxa2, h3⟩ := eq_of_noquote x hx ha2 h2
          cases U with
          | nil =>
            simp only [List.nil_append] at h3
            injection h3 with hq _
            exact absurd hq (by decide)
          | cons u0 U2 =>
            simp only [List.cons_append] at h3
            injection h3 with hu0 h4
            obtain ⟨w, hw⟩ := encElems_head y r2
            rw [hw] at h4
            have hU2 : '"' ∉ U2 := fun hm => hU (List.mem_cons_of_mem _ hm)
            have h5 : ([] : List Char) ++ '"' :: w = U2 ++ '"' :: b := h4
            obtain ⟨hU2e, _⟩ := eq_of_noquote [] (by simp) hU2 h5
            right
            rw [← hu0, ← hU2e]
        · have h2' : x ++ '"' :: ',' :: encElems (y :: r2) =
              a3 ++ '"' :: (a4 ++ '"' :: (U ++ '"' :: b)) := by
            simpa [List.append_assoc] using h2
          obtain ⟨hxa3, h3⟩ := eq_of_noquote x hx ha3 h2'
          cases a4 with
          | nil =>
            simp only [List.nil_append] at h3
            injection h3 with hq _
            exact absurd hq (by decide)
          | cons c4 a5 =>
            simp only [List.cons_append] at h3
            injection h3 with _ h4
            rcases ih (fun z hz => hL z (List.mem_cons_of_mem _ hz)) a5 b h4 with
              hm | hc
            · exact Or.inl (List.mem_cons_of_mem _ hm)
            · exact Or.inr hc

theorem body_mem {U : List Char} :
    ∀ (L : List (List Char)), U ∈ L →
      ∃ a b, encElems L = a ++ '"' :: (U ++ '"' :: b) := by
  intro L
  induction L with
  | nil => intro h; exact absurd h (by simp)
  | cons x r ih =>
    intro h
    rcases List.mem_cons.mp h with rfl | hmem
    · cases r with
      | nil => exact ⟨[], [], by rw [encElems_single]; rfl⟩
      | cons y r2 =>
        exact ⟨[], ',' :: encElems (y :: r2), by rw [encElems_two]; rfl⟩
    · cases r with
      | nil => exact absurd hmem (by simp)
      | cons y r2 =>
        obtain ⟨a, b, hab⟩ := ih hmem
        refine ⟨'"' :: (x ++ '"' :: ',' :: a), b, ?_⟩
        rw [encElems_two, hab]
        simp [List.cons_append, List.append_assoc]

theorem encList_occ_iff {U : List Char} (hU : '"' ∉ U) (hUc : U ≠ [','])
    (L : List (List Char)) (hL : ∀ x ∈ L, '"' ∉ x) :
    (∃ a b, encList L = a ++ '"' :: (U ++ '"' :: b)) ↔ U ∈ L := by
  constructor
  · rintro ⟨a, b, h⟩
    rw [show encList L = '[' :: (encElems L ++ [']']) from rfl] at h
    cases a with
    | nil =>
      simp only [List.nil_append] at h
      injection h with h1 _
      exact absurd h1 (by decide)
    | cons c a1 =>
      simp only [List.cons_append] at h
      injection h with h1 h2
      rcases List.eq_nil_or_concat b with rfl | ⟨b1, bl, rfl⟩
      · have h3 : encElems L ++ [']'] = (a1 ++ '"' :: U) ++ ['"'] := by
          simpa [List.append_assoc] using h2
        obtain ⟨_, hlast⟩ := append_singleton_inj h3
        exact absurd hlast (by decide)
      · have h3 : encElems L ++ [']'] =
            (a1 ++ '"' :: (U ++ '"' :: b1)) ++ [bl] := by
          simpa [List.append_assoc, List.cons_append] using h2
        obtain ⟨hbody, _⟩ := append_singleton_inj h3
        rcases body_occ hU L hL a1 b1 hbody with hm | hc
        · exact hm
        · exact absurd hc hUc
  · intro hm
    obtain ⟨a, b, hab⟩ := body_mem L hm
    refine ⟨'[' :: a, b ++ [']'], ?_⟩
    show '[' :: (encElems L ++ [']']) = _
    rw [hab]
    simp [List.cons_append, List.append_assoc]

theorem containsCI_nil (t : List Char) : containsCI [] t = true := by
  induction t with
  | nil => rfl
  | cons c ts ih =>
    show (startsWithCI [] (c :: ts) || containsCI [] ts) = true
    rw [ih]
    rfl

theorem likeClean_chars {s : String} (h : likeClean s = true) :
    ∀ c ∈ s.data, c ≠ '%' ∧ c ≠ '_' := by
  intro c hc
  rw [likeClean, List.all_eq_true] at h
  have h2 := h c hc
  simp at h2
  exact h2

theorem tagClean_chars {t : String} (h : tagClean t = true) :
    (∀ c ∈ t.data, plainChar c = true ∧ c ≠ '%' ∧ c ≠ '_') ∧ t ≠ "," := by
  rw [tagClean, Bool.and_eq_true] at h
  obtain ⟨h1, h2⟩ := h
  constructor
  · intro c hc
    rw [List.all_eq_true] at h1
    have h3 := h1 c hc
    simp at h3
    exact ⟨h3.1, h3.2.1, h3.2.2⟩
  · simpa using h2

theorem plainChar_ne_quote {c : Char} (h : plainChar c = true) : c ≠ '"' := by
  intro hc
  rw [hc] at h
  exact absurd h (by decide)

theorem tag_in_json (t : String) (ts : List String)
    (htc : tagClean t = true)
    (hts : ∀ x ∈ ts, ∀ c ∈ x.data, plainChar c = true) :
    containsCI ('"' :: t.data ++ ['"']) (jsonMarshal ts).data =
      ts.any (fun x => fm x.data == fm t.data) := by
  obtain ⟨hchars, hne⟩ := tagClean_chars htc
  have htq : '"' ∉ t.data := fun hm => plainChar_ne_quote (hchars _ hm).1 rfl
  have hUq : '"' ∉ fm t.data := quote_not_mem_fm htq
  have hUc : fm t.data ≠ [','] := by
    intro hcomma
    apply hne
    cases hdata : t.data with
    | nil => rw [hdata] at hcomma; exact absurd hcomma (by simp [fm])
    | cons c rest =>
      rw [hdata] at hcomma
      have hcomma' : foldChar c :: fm rest = [','] := hcomma
      injection hcomma' with hc hrest
      have hrnil : rest = [] := by
        have := congrArg List.length hrest
        simpa [fm] using this
      have hcc : c = ',' := foldChar_eq_comma hc
      apply String.ext
      rw [hdata, hrnil, hcc]
  have hM : ∀ x ∈ (ts.map String.data).map fm, '"' ∉ x := by
    intro x hx
    obtain ⟨l, hl, rfl⟩ := List.mem_map.mp hx
    obtain ⟨y, hy, rfl⟩ := List.mem_map.mp hl
    exact quote_not_mem_fm (fun hm => plainChar_ne_quote (hts y hy _ hm) rfl)
  apply bool_eq_of_iff
  rw [containsCI_iff, jsonMarshal_clean ts hts, fm_encList]
  have hneedle : fm ('"' :: t.data ++ ['"']) = '"' :: (fm t.data ++ ['"']) := by
    simp [fm]
    decide
  rw [hneedle]
  have hiff : (∃ p r, encList ((ts.map String.data).map fm) =
      p ++ ('"' :: (fm t.data ++ ['"'])) ++ r) ↔
      (∃ a b, encList ((ts.map String.data).map fm) =
        a ++ '"' :: (fm t.data ++ '"' :: b)) := by
    constructor
    · rintro ⟨p, r, hr⟩
      exact ⟨p, r, by simpa [List.append_assoc, List.cons_append] using hr⟩
    · rintro ⟨a, b, hb⟩
      exact ⟨a, b, by simpa [List.append_assoc, List.cons_append] using hb⟩
  rw [hiff, encList_occ_iff hUq hUc _ hM]
  constructor
  · intro hm
    obtain ⟨l, hl, hfl⟩ := List.mem_map.mp hm
    obtain ⟨x, hx, rfl⟩ := List.mem_map.mp hl
    rw [List.any_eq_true]
    exact ⟨x, hx, by rw [beq_iff_eq, hfl]⟩
  · intro ha
    rw [List.any_eq_true] at ha
    obtain ⟨x, hx, hbeq⟩ := ha
    rw [beq_iff_eq] at hbeq
    exact List.mem_map.mpr ⟨x.data, List.mem_map.mpr ⟨x, hx, rfl⟩, hbeq⟩

theorem searchCond_eq_spec (query : String) (tags : List String) (n : Note)
    (ts : List String)
    (hq : likeClean query = true) (ht : ∀ t ∈ tags, tagClean t = true)
    (hn : n.tags = jsonMarshal ts)
    (hts : ∀ x ∈ ts, ∀ c ∈ x.data, plainChar c = true) :
    DB.searchCond query tags n =
      (!n.deleted && searchSpecMatch query tags n.title n.content ts) := by
  unfold DB.searchCond searchSpecMatch
  have hQ : (query == "" || likeMatch ('%' :: query.data ++ ['%']) n.title.data
      || likeMatch ('%' :: query.data ++ ['%']) n.content.data) =
      (containsCI query.data n.title.data ||
        containsCI query.data n.content.data) := by
    by_cases hqe : query = ""
    · subst hqe
      have hdat : ("" : String).data = [] := rfl
      rw [hdat, containsCI_nil, containsCI_nil]
      rfl
    · have hb : (query == "") = false := by simp [hqe]
      have e1 : likeMatch ('%' :: query.data ++ ['%']) n.title.data =
          containsCI query.data n.title.data :=
        likeMatch_pat_eq_contains query.data n.title.data (likeClean_chars hq)
      have e2 : likeMatch ('%' :: query.data ++ ['%']) n.content.data =
          containsCI query.data n.content.data :=
        likeMatch_pat_eq_contains query.data n.content.data (likeClean_chars hq)
      rw [hb, e1, e2]
      rfl
  have hT : (tags.all fun t =>
      likeMatch ('%' :: '"' :: t.data ++ ['"', '%']) n.tags.data) =
      (tags.all fun t => ts.any (fun x => fm x.data == fm t.data)) := by
    apply list_all_congr
    intro t htag
    obtain ⟨hchars, _⟩ := tagClean_chars (ht t htag)
    have hclean : ∀ c ∈ '"' :: t.data ++ ['"'], c ≠ '%' ∧ c ≠ '_' := by
      intro c hc
      rcases List.mem_cons.mp hc with rfl | hc2
      · exact ⟨by decide, by decide⟩
      · rcases List.mem_append.mp hc2 with h3 | h3
        · exact ⟨(hchars c h3).2.1, (hchars c h3).2.2⟩
        · have : c = '"' := by simpa using h3
          subst this
          exact ⟨by decide, by decide⟩
    have epat : ('%' :: '"' :: t.data ++ ['"', '%']) =
        '%' :: (('"' :: t.data ++ ['"']) ++ ['%']) := by
      simp [List.append_assoc]
    rw [epat, likeMatch_pat_eq_contains ('"' :: t.data ++ ['"']) n.tags.data hclean,
      hn, tag_in_json t ts (ht t htag) hts]
  rw [hQ, hT, Bool.and_assoc]

/-- C9 counterexample: `SearchNotes` with query `"a"` returns the note
titled `"A"` even though `"a"` is not a case-sensitive substring of
`"A"` — the SQLite `LIKE` behind the search is ASCII-case-insensitive. -/
theorem searchNotes_case_insensitive :
    DB.SearchNotes [{ id := 1, title := r"A", updatedAt := 3 }] (r"a") [] =
      [{ id := 1, title := r"A", updatedAt := 3, syncStatus := SyncStatusLocal }] ∧
    containsCS (r"a").data (r"A").data = false :=
  ⟨by rfl, by rfl⟩

/-- C9 (amended): provided the query and the requested tags contain no
SQL `LIKE` wildcard (`%`, `_`), the tags contain no character the JSON
encoder escapes (quote, backslash, `<`, `>`, `&`, control characters)
and no requested tag is the one-character string `","`, `SearchNotes`
returns exactly the non-deleted notes whose title or content contains
the query as an ASCII-case-insensitive substring and whose tag list
contains every requested tag up to ASCII case (AND across tags), ordered
by `updatedAt` descending. -/
theorem searchNotes_spec (rows : List (Note × List String)) (query : String)
    (tags : List String)
    (hq : likeClean query = true)
    (ht : ∀ t ∈ tags, tagClean t = true)
    (hrows : ∀ p ∈ rows, p.1.tags = jsonMarshal p.2 ∧
      ∀ x ∈ p.2, ∀ c ∈ x.data, plainChar c = true) :
    DB.SearchNotes (rows.map Prod.fst) query tags =
      sortDescBy (fun i => i.updatedAt)
        ((rows.filter (fun p => !p.1.deleted &&
            searchSpecMatch query tags p.1.title p.1.content p.2)).map
          (fun p => DB.noteItem p.1)) := by
  unfold DB.SearchNotes
  congr 1
  rw [List.filter_map, List.map_map]
  have hfilter : rows.filter ((DB.searchCond query tags) ∘ Prod.fst) =
      rows.filter (fun p => !p.1.deleted &&
        searchSpecMatch query tags p.1.title p.1.content p.2) := by
    apply List.filter_congr
    intro p hp
    exact searchCond_eq_spec query tags p.1 p.2 hq ht (hrows p hp).1 (hrows p hp).2
  rw [hfilter]
  rfl

/-- Witness for C9: a case-insensitive hit on title and tag. -/
theorem searchNotes_spec_witness :
    DB.SearchNotes (c9rows.map Prod.fst) (r"hello") [r"B"] =
      sortDescBy (fun i => i.updatedAt)
        ((c9rows.filter (fun p => !p.1.deleted &&
            searchSpecMatch (r"hello") [r"B"] p.1.title p.1.content p.2)).map
          (fun p => DB.noteItem p.1)) :=
  searchNotes_spec c9rows (r"hello") [r"B"] (by decide) (by decide)
    (by decide)

end Jotaku
